/-
  Verification of the quant-data-sys spider core against its specification.

  Shallow embedding of the relevant parts of the source tree:
    src/plugins/html_cleaner.py          (HtmlCleaner)
    src/plugins/scrapers/generic.py      (GenericScraper._run_cleaning_pipeline)
    src/services/spider_service.py       (SpiderService)
    src/core/retry/retry_handler.py      (ExponentialBackoffHandler)
    src/core/queue/async_queue.py        (AsyncQueue._worker)
    src/infrastructure/http/httpx_client.py (HttpxClient._fetch_internal)

  Python strings are modelled as Lean String over their character lists;
  Python float delays and thresholds are modelled as exact rationals, or as
  elements of an abstract linearly ordered commutative ring where the claims
  are algebraic.  Stateful database code is modelled by explicit state
  passing over a functional store.
-/
import Mathlib

set_option linter.unusedVariables false

/-! ## Basic string utilities (models of the Python string operations used) -/

/-- Model of Python str truthiness-preserving strip of a single character
from both ends, as in url_path.strip("/"). -/
def stripCharList (ch : Char) (l : List Char) : List Char :=
  ((l.dropWhile (· = ch)).reverse.dropWhile (· = ch)).reverse

/-- Model of Python s.strip("/") on strings. -/
def stripChar (ch : Char) (s : String) : String :=
  String.mk (stripCharList ch s.data)

/-- Model of Python s.strip() (whitespace strip) on character lists. -/
def stripWsList (l : List Char) : List Char :=
  ((l.dropWhile Char.isWhitespace).reverse.dropWhile Char.isWhitespace).reverse

/-- Model of Python s.strip() on strings. -/
def stripWs (s : String) : String :=
  String.mk (stripWsList s.data)

/-- Model of Python s.split(sep) for a one-character separator: splits the
character list at every occurrence of the separator, keeping empty pieces. -/
def splitChList (sep : Char) : List Char → List (List Char)
  | [] => [[]]
  | c :: rest =>
    let r := splitChList sep rest
    if c = sep then [] :: r else (c :: r.headD []) :: r.tail

/-- Model of Python s.lower() restricted to ASCII case mapping. -/
def lowerStr (s : String) : String :=
  String.mk (s.data.map Char.toLower)

/-- Model of Python s.count("-"): number of hyphen occurrences. -/
def hyphenCount (s : String) : Nat :=
  (s.data.filter (· = '-')).length

/-- Model of Python str.islower() for ASCII text: there is at least one
cased (alphabetic) character and no uppercase character. -/
def pyIsLower (s : String) : Bool :=
  s.data.any (fun c => c.isAlpha) && s.data.all (fun c => ¬ c.isUpper)

/-- listStarts s p: the list s starts with the list p
(model of Python s.startswith(p) on character lists). -/
def listStarts : List Char → List Char → Bool
  | _, [] => true
  | [], _ :: _ => false
  | a :: as, b :: bs => a = b && listStarts as bs

/-- Model of Python s.startswith(p) on strings. -/
def strStarts (s p : String) : Bool :=
  listStarts s.data p.data

/-- Model of Python href.split("?")[0]: everything before the first
question mark. -/
def stripQuery (s : String) : String :=
  String.mk (s.data.takeWhile (· ≠ '?'))

/-- On a reversed character list, after the leading digits: the next
character must be a hyphen.  Helper for the -\d+$ regular expression. -/
def afterDigitsDash : List Char → Bool
  | [] => false
  | c :: rest => if c.isDigit then afterDigitsDash rest else c = '-'

/-- Model of re.search(r"-\d+$", s): s ends with a hyphen followed by at
least one digit. -/
def endsDashDigits (s : String) : Bool :=
  match s.data.reverse with
  | [] => false
  | c :: rest => c.isDigit && afterDigitsDash rest

/-- Characters terminating the authority component of a URL. -/
def hostDelim (c : Char) : Bool :=
  c = '/' || c = '?' || c = '#'

/-- Model of urllib.parse.urlparse(s).netloc for http(s) URLs: the text
between the scheme separator and the first slash, question mark or hash.
Relative references and other schemes yield the empty netloc. -/
def urlHost (s : String) : String :=
  if strStarts s "https://" then String.mk ((s.data.drop 8).takeWhile (fun c => ¬ hostDelim c))
  else if strStarts s "http://" then String.mk ((s.data.drop 7).takeWhile (fun c => ¬ hostDelim c))
  else ""

/-- Model of urllib.parse.urlparse(s).path for absolute http(s) URLs: the
text after the authority up to the first question mark or hash. -/
def urlPath (s : String) : String :=
  if strStarts s "https://" then
    String.mk (((s.data.drop 8).dropWhile (fun c => ¬ hostDelim c)).takeWhile (fun c => c ≠ '?' ∧ c ≠ '#'))
  else if strStarts s "http://" then
    String.mk (((s.data.drop 7).dropWhile (fun c => ¬ hostDelim c)).takeWhile (fun c => c ≠ '?' ∧ c ≠ '#'))
  else ""

/-! ## HtmlCleaner._is_probable_article_slug (src/plugins/html_cleaner.py 203-253) -/

/-- The keyword configuration of _is_probable_article_slug.  The float
threshold min_hyphen_ratio is modelled as an exact rational. -/
structure SlugCfg where
  min_slug_length : Int
  min_hyphen_count : Int
  min_path_depth : Int
  min_total_path_length : Int
  exclude_paths : List String
  require_lowercase : Bool
  min_hyphen_ratio : ℚ

/-- The source defaults: 30, 3, 1, 50, none, True, 0.05. -/
def defaultSlugCfg : SlugCfg :=
  { min_slug_length := 30
    min_hyphen_count := 3
    min_path_depth := 1
    min_total_path_length := 50
    exclude_paths := []
    require_lowercase := true
    min_hyphen_ratio := 1/20 }

/-- normalized_path = url_path.strip("/"). -/
def normalized_path (p : String) : String := stripChar '/' p

/-- parts = [p for p in normalized_path.split("/") if p]. -/
def path_parts (p : String) : List String :=
  ((splitChList '/' (normalized_path p).data).map String.mk).filter (· ≠ "")

/-- slug = parts[-1] (defaulting to the empty string on an empty list,
which the source never reaches). -/
def path_slug (p : String) : String := (path_parts p).getLastD ""

/-- hyphen_ratio = hyphen_count / len(slug) if len(slug) > 0 else 0. -/
def slug_ratio (p : String) : ℚ :=
  if 0 < (path_slug p).length then
    (hyphenCount (path_slug p) : ℚ) / ((path_slug p).length : ℚ)
  else 0

/-- HtmlCleaner._is_probable_article_slug: the early-return chain of
checks over the split path, translated check for check from the source. -/
def is_probable_article_slug (url_path : String) (cfg : SlugCfg) : Bool :=
  if url_path = "" then false
  else if normalized_path url_path = "" then false
  else if ((path_parts url_path).length : Int) < cfg.min_path_depth then false
  else if (path_parts url_path).any (fun part => lowerStr part ∈ cfg.exclude_paths) then false
  else if ((normalized_path url_path).length : Int) < cfg.min_total_path_length then false
  else if ((path_slug url_path).length : Int) < cfg.min_slug_length then false
  else if (hyphenCount (path_slug url_path) : Int) < cfg.min_hyphen_count then false
  else if slug_ratio url_path < cfg.min_hyphen_ratio then false
  else if cfg.require_lowercase ∧ ¬ pyIsLower (path_slug url_path) then false
  else true

/-- The conjunction stated by the claim, with the spec reading of the
lowercase check: the slug equals its lowercasing.  This is the formula the
claim asserts is equivalent to the source function. -/
def slug_ok_claimed (p : String) (cfg : SlugCfg) : Prop :=
  p ≠ "" ∧ normalized_path p ≠ "" ∧
  cfg.min_path_depth ≤ ((path_parts p).length : Int) ∧
  (∀ part ∈ path_parts p, lowerStr part ∉ cfg.exclude_paths) ∧
  cfg.min_total_path_length ≤ ((normalized_path p).length : Int) ∧
  cfg.min_slug_length ≤ ((path_slug p).length : Int) ∧
  cfg.min_hyphen_count ≤ (hyphenCount (path_slug p) : Int) ∧
  cfg.min_hyphen_ratio ≤ slug_ratio p ∧
  (cfg.require_lowercase = true → lowerStr (path_slug p) = path_slug p)

/-- The same conjunction with the lowercase check as the source actually
performs it: Python str.islower(), which also demands a cased character. -/
def slug_ok_actual (p : String) (cfg : SlugCfg) : Prop :=
  p ≠ "" ∧ normalized_path p ≠ "" ∧
  cfg.min_path_depth ≤ ((path_parts p).length : Int) ∧
  (∀ part ∈ path_parts p, lowerStr part ∉ cfg.exclude_paths) ∧
  cfg.min_total_path_length ≤ ((normalized_path p).length : Int) ∧
  cfg.min_slug_length ≤ ((path_slug p).length : Int) ∧
  cfg.min_hyphen_count ≤ (hyphenCount (path_slug p) : Int) ∧
  cfg.min_hyphen_ratio ≤ slug_ratio p ∧
  (cfg.require_lowercase = true → pyIsLower (path_slug p) = true)

theorem is_probable_iff_actual (p : String) (cfg : SlugCfg) :
    is_probable_article_slug p cfg = true ↔ slug_ok_actual p cfg := by
  constructor
  · intro h
    unfold is_probable_article_slug at h
    by_cases c0 : p = ""
    · rw [if_pos c0] at h; exact absurd h (by simp)
    rw [if_neg c0] at h
    by_cases c1 : normalized_path p = ""
    · rw [if_pos c1] at h; exact absurd h (by simp)
    rw [if_neg c1] at h
    by_cases c2 : ((path_parts p).length : Int) < cfg.min_path_depth
    · rw [if_pos c2] at h; exact absurd h (by simp)
    rw [if_neg c2] at h
    by_cases c3 : (path_parts p).any (fun part => lowerStr part ∈ cfg.exclude_paths) = true
    · rw [if_pos c3] at h; exact absurd h (by simp)
    rw [if_neg c3] at h
    by_cases c4 : ((normalized_path p).length : Int) < cfg.min_total_path_length
    · rw [if_pos c4] at h; exact absurd h (by simp)
    rw [if_neg c4] at h
    by_cases c5 : ((path_slug p).length : Int) < cfg.min_slug_length
    · rw [if_pos c5] at h; exact absurd h (by simp)
    rw [if_neg c5] at h
    by_cases c6 : (hyphenCount (path_slug p) : Int) < cfg.min_hyphen_count
    · rw [if_pos c6] at h; exact absurd h (by simp)
    rw [if_neg c6] at h
    by_cases c7 : slug_ratio p < cfg.min_hyphen_ratio
    · rw [if_pos c7] at h; exact absurd h (by simp)
    rw [if_neg c7] at h
    by_cases c8 : cfg.require_lowercase = true ∧ ¬ pyIsLower (path_slug p) = true
    · rw [if_pos c8] at h; exact absurd h (by simp)
    refine ⟨c0, c1, by omega, ?_, by omega, by omega, by omega, by linarith, ?_⟩
    · intro part hmem hin
      exact c3 (List.any_eq_true.mpr ⟨part, hmem, decide_eq_true hin⟩)
    · intro hreq
      by_contra hnl
      exact c8 ⟨hreq, by simpa using hnl⟩
  · rintro ⟨c0, c1, c2, c3, c4, c5, c6, c7, c8⟩
    unfold is_probable_article_slug
    rw [if_neg c0, if_neg c1, if_neg (by omega), if_neg ?hany, if_neg (by omega),
        if_neg (by omega), if_neg (by omega), if_neg (by linarith), if_neg ?hlow]
    case hany =>
      intro hx
      rcases List.any_eq_true.mp hx with ⟨part, hmem, hin⟩
      exact c3 part hmem (decide_eq_true_eq.mp hin)
    case hlow =>
      rintro ⟨hreq, hnl⟩
      exact hnl (c8 hreq)

/-- A path whose slug is all digits and hyphens: it equals its own
lowercasing, yet Python str.islower() is False on it because it has no
cased character. -/
def digitSlugPath : String := "markets/breaking/1111-2222-3333-4444-5555-6666-7777"

/-- Claim C7 counterexample: on digitSlugPath with the source defaults the
claimed if-and-only-if formula (with the lowercase check read as equality
with the lowercasing) holds, but _is_probable_article_slug returns False,
because the source uses str.islower(), which demands a cased character. -/
theorem C7_counterexample :
    is_probable_article_slug digitSlugPath defaultSlugCfg = false ∧
      slug_ok_claimed digitSlugPath defaultSlugCfg := by
  have hslug : path_slug digitSlugPath = "1111-2222-3333-4444-5555-6666-7777" := by decide
  have hhc : hyphenCount (path_slug digitSlugPath) = 6 := by rw [hslug]; decide
  have hlen : (path_slug digitSlugPath).length = 34 := by rw [hslug]; decide
  have hratio : slug_ratio digitSlugPath = (6 : ℚ)/34 := by
    unfold slug_ratio
    rw [hhc, hlen]
    norm_num
  constructor
  · rw [Bool.eq_false_iff]
    intro htrue
    rcases (is_probable_iff_actual digitSlugPath defaultSlugCfg).mp htrue with
      ⟨-, -, -, -, -, -, -, -, hlow⟩
    have : pyIsLower (path_slug digitSlugPath) = false := by rw [hslug]; decide
    rw [hlow rfl] at this
    exact absurd this (by decide)
  · refine ⟨by decide, by decide, by decide, by decide, by decide, ?_, ?_, ?_, ?_⟩
    · show defaultSlugCfg.min_slug_length ≤ _
      rw [hlen]; decide
    · show defaultSlugCfg.min_hyphen_count ≤ _
      rw [hhc]; decide
    · show defaultSlugCfg.min_hyphen_ratio ≤ _
      rw [hratio]
      norm_num [defaultSlugCfg]
    · intro _
      rw [hslug]; decide

/-- Claim C7 (amended): _is_probable_article_slug p cfg is true exactly
when the non-empty path parts satisfy all thresholds simultaneously, where
the lowercase condition is Python str.islower (at least one cased
character and no uppercase character) rather than bare equality with the
lowercasing; and raising any single numeric threshold just above the value
realised by the input flips the result to false. -/
theorem C7_is_probable_article_slug_characterisation (p : String) (cfg : SlugCfg) :
    (is_probable_article_slug p cfg = true ↔ slug_ok_actual p cfg) ∧
    (is_probable_article_slug p cfg = true →
      is_probable_article_slug p { cfg with min_path_depth := (path_parts p).length + 1 } = false ∧
      is_probable_article_slug p { cfg with min_total_path_length := (normalized_path p).length + 1 } = false ∧
      is_probable_article_slug p { cfg with min_slug_length := (path_slug p).length + 1 } = false ∧
      is_probable_article_slug p { cfg with min_hyphen_count := (hyphenCount (path_slug p) : Int) + 1 } = false ∧
      ∀ q : ℚ, slug_ratio p < q →
        is_probable_article_slug p { cfg with min_hyphen_ratio := q } = false) := by
  refine ⟨is_probable_iff_actual p cfg, fun htrue => ?_⟩
  refine ⟨?_, ?_, ?_, ?_, ?_⟩
  · rw [Bool.eq_false_iff]
    intro hx
    rcases (is_probable_iff_actual p _).mp hx with ⟨-, -, hd, -⟩
    simp only at hd
    omega
  · rw [Bool.eq_false_iff]
    intro hx
    rcases (is_probable_iff_actual p _).mp hx with ⟨-, -, -, -, ht, -⟩
    simp only at ht
    omega
  · rw [Bool.eq_false_iff]
    intro hx
    rcases (is_probable_iff_actual p _).mp hx with ⟨-, -, -, -, -, hs, -⟩
    simp only at hs
    omega
  · rw [Bool.eq_false_iff]
    intro hx
    rcases (is_probable_iff_actual p _).mp hx with ⟨-, -, -, -, -, -, hh, -⟩
    simp only at hh
    omega
  · intro q hq
    rw [Bool.eq_false_iff]
    intro hx
    rcases (is_probable_iff_actual p _).mp hx with ⟨-, -, -, -, -, -, -, hr, -⟩
    simp only at hr
    linarith

/-- Witness for C7: the characterisation applied at a concrete valid slug
path with the source defaults. -/
theorem C7_witness :
    is_probable_article_slug "business/rbi-policy-update-on-interest-rates-today-live" defaultSlugCfg = true ↔
      slug_ok_actual "business/rbi-policy-update-on-interest-rates-today-live" defaultSlugCfg :=
  (C7_is_probable_article_slug_characterisation
    "business/rbi-policy-update-on-interest-rates-today-live" defaultSlugCfg).1

/-! ## HttpxClient._fetch_internal (src/infrastructure/http/httpx_client.py 47-96)

The outcome of the single GET issued inside the try block is abstracted as
a FetchCase: either the transport raises httpx.HTTPError, or a response
arrives with a status code, a body length (len(response.text)) and a flag
recording whether the final URL differs from the requested URL.  Float
second values are modelled as exact rationals. -/

/-- Outcome of the underlying httpx GET. -/
inductive FetchCase where
  | transportErr
  | response (status : Nat) (bodyLen : Nat) (finalUrlDiffers : Bool)

/-- The HttpClientException payload that matters to callers: the
retry_after hint (exceptions.py stores it on RetryableException). -/
structure HttpClientError where
  retry_after : ℚ
deriving DecidableEq

/-- What can escape the try block of _fetch_internal before the except
clauses run: the transport error, or an HttpClientException raised by the
status / small-body checks inside the block. -/
inductive TryBodyErr where
  | httpError
  | clientErr (e : HttpClientError)

/-- The body of the try block of _fetch_internal: status >= 400 raises
HttpClientException with retry_after 2.0 (4xx) or 10.0 (5xx); a body of
fewer than 500 characters whose final URL differs from the requested one
raises HttpClientException with retry_after 0.1; otherwise the response is
returned. -/
def fetch_try_body : FetchCase → Except TryBodyErr (Nat × Nat)
  | .transportErr => .error .httpError
  | .response s len diff =>
    if 400 ≤ s then .error (.clientErr ⟨if s < 500 then 2 else 10⟩)
    else if len < 500 ∧ diff = true then .error (.clientErr ⟨0.1⟩)
    else .ok (s, len)

/-- HttpxClient._fetch_internal with its except clauses: except
httpx.HTTPError wraps the transport error with retry_after 5.0, and the
following except Exception clause catches every other exception raised in
the try block - including the HttpClientException instances raised by the
checks above, whose retry_after hints are therefore replaced by 5.0. -/
def fetch_internal (c : FetchCase) : Except HttpClientError (Nat × Nat) :=
  match fetch_try_body c with
  | .ok r => .ok r
  | .error .httpError => .error ⟨5⟩
  | .error (.clientErr _) => .error ⟨5⟩

/-- Claim C8 evaluation: every failure of _fetch_internal escapes with
retry_after = 5.0, including a 404 (claimed 2s), a 503 (claimed 10s) and a
small body after redirect (claimed 0.1s), because the except Exception
clause catches and re-wraps the HttpClientException raised inside the try
block. -/
theorem C8_retry_after_always_five :
    fetch_internal (.response 404 1000 false) = .error ⟨5⟩ ∧
    fetch_internal (.response 503 1000 false) = .error ⟨5⟩ ∧
    fetch_internal (.response 200 100 true) = .error ⟨5⟩ ∧
    fetch_internal .transportErr = .error ⟨5⟩ ∧
    fetch_try_body (.response 404 1000 false) = .error (.clientErr ⟨2⟩) ∧
    (5 : ℚ) ≠ 2 ∧ (5 : ℚ) ≠ 10 ∧ (5 : ℚ) ≠ 0.1 := by
  refine ⟨rfl, rfl, rfl, rfl, rfl, by norm_num, by norm_num, by norm_num⟩

/-! ## ExponentialBackoffHandler.handle (src/core/retry/retry_handler.py 57-90)

The wrapped coroutine is modelled as a function from the attempt index to
its outcome; float delays live in an abstract linearly ordered commutative
ring (exact rationals are an instance).  A retry_after of 0 models both
None and 0.0, which are equally falsy in the source check
if e.retry_after. -/

/-- Outcome of one invocation of the wrapped function. -/
inductive FetchOutcome (α : Type) (β : Type) where
  | ok (v : β)
  | retryable (retry_after : α)
  | fatal
deriving DecidableEq

/-- How ExponentialBackoffHandler.handle terminates. -/
inductive HandleResult (α : Type) (β : Type) where
  | value (v : β)
  | raisedRetryable (retry_after : α)
  | raisedFatal
  | runtimeError
deriving DecidableEq

/-- Constructor arguments of ExponentialBackoffHandler. -/
structure BackoffCfg (α : Type) where
  max_retries : Nat
  initial_delay : α
  max_delay : α
  backoff_factor : α

/-- The visible trace of one handle call: its result, the list of sleep
durations in order, and the number of invocations of the function. -/
structure RunTrace (α : Type) (β : Type) where
  result : HandleResult α β
  waits : List α
  calls : Nat
deriving DecidableEq

/-- wait_time = min(delay, max_delay); if e.retry_after:
wait_time = max(wait_time, e.retry_after). -/
def wait_time {α : Type} [LinearOrder α] [Zero α] (cfg : BackoffCfg α) (delay ra : α) : α :=
  if ra ≠ 0 then max (min delay cfg.max_delay) ra else min delay cfg.max_delay

/-- The retry loop of handle, recursing on the number of attempts left;
the fuel-0 base case is the final RuntimeError, unreachable from the top
entry because range(max_retries + 1) is never empty. -/
def backoff_run {α β : Type} [LinearOrder α] [Zero α] [Mul α]
    (cfg : BackoffCfg α) (fn : Nat → FetchOutcome α β) : Nat → Nat → α → RunTrace α β
  | _, 0, _ => ⟨.runtimeError, [], 0⟩
  | i, fuel + 1, delay =>
    match fn i with
    | .ok v => ⟨.value v, [], 1⟩
    | .fatal => ⟨.raisedFatal, [], 1⟩
    | .retryable ra =>
      if fuel = 0 then ⟨.raisedRetryable ra, [], 1⟩
      else
        let rest := backoff_run cfg fn (i + 1) fuel (delay * cfg.backoff_factor)
        ⟨rest.result, wait_time cfg delay ra :: rest.waits, rest.calls + 1⟩

/-- ExponentialBackoffHandler.handle: run the loop for max_retries + 1
attempts starting from initial_delay. -/
def exponential_backoff_handle {α β : Type} [LinearOrder α] [Zero α] [Mul α]
    (cfg : BackoffCfg α) (fn : Nat → FetchOutcome α β) : RunTrace α β :=
  backoff_run cfg fn 0 (cfg.max_retries + 1) cfg.initial_delay

theorem backoff_run_calls_le {α β : Type} [LinearOrder α] [Zero α] [Mul α]
    (cfg : BackoffCfg α) (fn : Nat → FetchOutcome α β) :
    ∀ (fuel i : Nat) (delay : α), (backoff_run cfg fn i fuel delay).calls ≤ fuel := by
  intro fuel
  induction fuel with
  | zero => intro i delay; simp [backoff_run]
  | succ n ih =>
    intro i delay
    rcases h : fn i with v | ra | _
    · simp [backoff_run, h]
    · by_cases hn : n = 0
      · simp [backoff_run, h, hn]
      · simp only [backoff_run, h, if_neg hn]
        have := ih (i + 1) (delay * cfg.backoff_factor)
        omega
    · simp [backoff_run, h]

theorem backoff_run_waits {α β : Type} [LinearOrderedCommRing α]
    (cfg : BackoffCfg α) (fn : Nat → FetchOutcome α β)
    (hM : 0 ≤ cfg.max_delay) (hb : 0 ≤ cfg.backoff_factor) :
    ∀ (fuel i : Nat) (delay : α), 0 ≤ delay →
      ∀ k, k < (backoff_run cfg fn i fuel delay).waits.length →
        ∃ ra, fn (i + k) = .retryable ra ∧
          (backoff_run cfg fn i fuel delay).waits.getD k 0 =
            max (min (delay * cfg.backoff_factor ^ k) cfg.max_delay) ra := by
  intro fuel
  induction fuel with
  | zero => intro i delay hd k hk; simp [backoff_run] at hk
  | succ n ih =>
    intro i delay hd k hk
    rcases h : fn i with v | ra | _
    · simp [backoff_run, h] at hk
    · by_cases hn : n = 0
      · simp [backoff_run, h, hn] at hk
      · simp only [backoff_run, h, if_neg hn] at hk ⊢
        match k with
        | 0 =>
          refine ⟨ra, by simpa using h, ?_⟩
          show wait_time cfg delay ra = _
          unfold wait_time
          by_cases hz : ra = 0
          · subst hz
            rw [if_neg (by simp), pow_zero, mul_one, max_eq_left (le_min hd hM)]
          · rw [if_pos hz, pow_zero, mul_one]
        | k + 1 =>
          have hk2 : k < (backoff_run cfg fn (i + 1) n (delay * cfg.backoff_factor)).waits.length := by
            simpa using Nat.lt_of_succ_lt_succ hk
          rcases ih (i + 1) (delay * cfg.backoff_factor) (mul_nonneg hd hb) k hk2 with ⟨ra2, hfn, hw⟩
          refine ⟨ra2, by rw [show i + (k + 1) = i + 1 + k by omega]; exact hfn, ?_⟩
          show (backoff_run cfg fn (i + 1) n (delay * cfg.backoff_factor)).waits.getD k 0 = _
          rw [hw]
          ring_nf
    · simp [backoff_run, h] at hk

theorem backoff_run_fatal {α β : Type} [LinearOrder α] [Zero α] [Mul α]
    (cfg : BackoffCfg α) (fn : Nat → FetchOutcome α β) :
    ∀ (fuel i : Nat) (delay : α) (j : Nat), j < fuel →
      (∀ i2 < j, ∃ ra, fn (i + i2) = .retryable ra) → fn (i + j) = .fatal →
      (backoff_run cfg fn i fuel delay).result = .raisedFatal ∧
        (backoff_run cfg fn i fuel delay).calls = j + 1 := by
  intro fuel
  induction fuel with
  | zero => intro i delay j hj; omega
  | succ n ih =>
    intro i delay j hj hall hfat
    match j with
    | 0 =>
      simp only [Nat.add_zero] at hfat
      simp [backoff_run, hfat]
    | j + 1 =>
      rcases hall 0 (by omega) with ⟨ra, hr⟩
      simp only [Nat.add_zero] at hr
      have hn : n ≠ 0 := by omega
      simp only [backoff_run, hr, if_neg hn]
      have hall2 : ∀ i2 < j, ∃ ra2, fn (i + 1 + i2) = .retryable ra2 := by
        intro i2 hi2
        rcases hall (i2 + 1) (by omega) with ⟨ra2, h2⟩
        exact ⟨ra2, by rw [show i + 1 + i2 = i + (i2 + 1) by omega]; exact h2⟩
      have hfat2 : fn (i + 1 + j) = .fatal := by
        rw [show i + 1 + j = i + (j + 1) by omega]; exact hfat
      rcases ih (i + 1) (delay * cfg.backoff_factor) j (by omega) hall2 hfat2 with ⟨h1, h2⟩
      exact ⟨h1, by simp [h2]⟩

theorem backoff_run_exhaust {α β : Type} [LinearOrder α] [Zero α] [Mul α]
    (cfg : BackoffCfg α) (fn : Nat → FetchOutcome α β) :
    ∀ (fuel i : Nat) (delay : α), fuel ≠ 0 →
      (∀ i2 < fuel, ∃ ra, fn (i + i2) = .retryable ra) →
      ∃ ra, fn (i + (fuel - 1)) = .retryable ra ∧
        (backoff_run cfg fn i fuel delay).result = .raisedRetryable ra ∧
        (backoff_run cfg fn i fuel delay).calls = fuel := by
  intro fuel
  induction fuel with
  | zero => intro i delay h; omega
  | succ n ih =>
    intro i delay _ hall
    rcases hall 0 (by omega) with ⟨ra, hr⟩
    simp only [Nat.add_zero] at hr
    by_cases hn : n = 0
    · subst hn
      exact ⟨ra, by simpa using hr, by simp [backoff_run, hr], by simp [backoff_run, hr]⟩
    · have hall2 : ∀ i2 < n, ∃ ra2, fn (i + 1 + i2) = .retryable ra2 := by
        intro i2 hi2
        rcases hall (i2 + 1) (by omega) with ⟨ra2, h2⟩
        exact ⟨ra2, by rw [show i + 1 + i2 = i + (i2 + 1) by omega]; exact h2⟩
      rcases ih (i + 1) (delay * cfg.backoff_factor) hn hall2 with ⟨ra2, hfn, hres, hcalls⟩
      refine ⟨ra2, ?_, ?_, ?_⟩
      · rw [show i + (n + 1 - 1) = i + 1 + (n - 1) by omega]; exact hfn
      · simp only [backoff_run, hr, if_neg hn]; exact hres
      · simp only [backoff_run, hr, if_neg hn]; simp [hcalls]

/-- Claim C4: ExponentialBackoffHandler.handle invokes the wrapped
function at most max_retries + 1 times; before each retry of a retryable
fetch error it waits max(min(delay, max_delay), error.retry_after) where
delay starts at initial_delay and is multiplied by backoff_factor after
each wait; a non-retryable error is re-raised immediately, after which no
further attempt is made; and if all max_retries + 1 attempts fail
retryably, the last retryable error is re-raised.  Delays are nonnegative
and the retry_after hints nonnegative, with 0 modelling an absent hint. -/
theorem C4_exponential_backoff_handle_spec {α β : Type} [LinearOrderedCommRing α]
    (cfg : BackoffCfg α) (fn : Nat → FetchOutcome α β)
    (hd : 0 ≤ cfg.initial_delay) (hM : 0 ≤ cfg.max_delay) (hb : 0 ≤ cfg.backoff_factor) :
    (exponential_backoff_handle cfg fn).calls ≤ cfg.max_retries + 1 ∧
    (∀ k, k < (exponential_backoff_handle cfg fn).waits.length →
      ∃ ra, fn k = .retryable ra ∧
        (exponential_backoff_handle cfg fn).waits.getD k 0 =
          max (min (cfg.initial_delay * cfg.backoff_factor ^ k) cfg.max_delay) ra) ∧
    (∀ j, j ≤ cfg.max_retries → (∀ i2 < j, ∃ ra, fn i2 = .retryable ra) → fn j = .fatal →
      (exponential_backoff_handle cfg fn).result = .raisedFatal ∧
        (exponential_backoff_handle cfg fn).calls = j + 1) ∧
    ((∀ i2 ≤ cfg.max_retries, ∃ ra, fn i2 = .retryable ra) →
      ∃ ra, fn cfg.max_retries = .retryable ra ∧
        (exponential_backoff_handle cfg fn).result = .raisedRetryable ra ∧
        (exponential_backoff_handle cfg fn).calls = cfg.max_retries + 1) := by
  refine ⟨backoff_run_calls_le cfg fn _ 0 _, ?_, ?_, ?_⟩
  · intro k hk
    have := backoff_run_waits cfg fn hM hb (cfg.max_retries + 1) 0 cfg.initial_delay hd k hk
    simpa using this
  · intro j hj hall hfat
    have := backoff_run_fatal cfg fn (cfg.max_retries + 1) 0 cfg.initial_delay j
      (by omega) (by simpa using hall) (by simpa using hfat)
    simpa using this
  · intro hall
    have := backoff_run_exhaust cfg fn (cfg.max_retries + 1) 0 cfg.initial_delay
      (by omega) (by intro i2 hi2; simpa using hall i2 (by omega))
    simpa using this

/-- Concrete configuration for the C4 witness: max_retries 3,
initial_delay 1, max_delay 60, backoff_factor 2, over the integers. -/
def backoffCfgW : BackoffCfg Int := ⟨3, 1, 60, 2⟩

/-- Concrete wrapped function for the C4 witness: one retryable failure
with retry_after 7, then success. -/
def backoffFnW : Nat → FetchOutcome Int Nat :=
  fun i => if i = 0 then .retryable 7 else .ok 42

/-- Witness for C4: the backoff specification applied at a concrete
configuration and function over the integers. -/
theorem C4_witness :
    (0 ≤ backoffCfgW.initial_delay ∧ 0 ≤ backoffCfgW.max_delay ∧
      0 ≤ backoffCfgW.backoff_factor) ∧
    (exponential_backoff_handle backoffCfgW backoffFnW).calls ≤ backoffCfgW.max_retries + 1 := by
  refine ⟨⟨by decide, by decide, by decide⟩, ?_⟩
  exact (C4_exponential_backoff_handle_spec backoffCfgW backoffFnW
    (by decide) (by decide) (by decide)).1

/-! ## AsyncQueue._worker (src/core/queue/async_queue.py 88-117)

One worker is modelled over a finite trace of loop iterations.  Each
iteration records the value of self.running observed at the loop head and
what the guarded queue read produced: a timeout (asyncio.TimeoutError), a
non-timeout error from the read (the outer except Exception), or a queue
item whose data is either None (the shutdown sentinel) or a payload.  The
worker function is a function from payloads to Except, an exception being
the error case. -/

/-- What one iteration of the worker loop encounters. -/
inductive WorkerEvent (τ : Type) where
  | timeout
  | getError
  | item (data : Option τ)

/-- Why the worker loop ended within the trace. -/
inductive WorkerExit where
  | notRunning
  | sentinel
deriving DecidableEq

/-- Observable outcome of running a worker over a trace: how many items
were marked done (queue.task_done), how many worker_func exceptions were
caught and logged, and whether and why the loop exited. -/
structure WorkerOut where
  tasksDone : Nat
  errorsCaught : Nat
  exit : Option WorkerExit
deriving DecidableEq

/-- AsyncQueue._worker: while self.running, read the queue; a timeout or a
read error continues the loop; an item with data None breaks; otherwise
worker_func runs under try/except - its exception is caught and logged -
and task_done is called in either case before the next iteration. -/
def worker_run {τ ε ρ : Type} (worker_func : τ → Except ε ρ) :
    List (Bool × WorkerEvent τ) → WorkerOut
  | [] => ⟨0, 0, none⟩
  | (running, ev) :: rest =>
    if ¬ running then ⟨0, 0, some .notRunning⟩
    else
      match ev with
      | .timeout => worker_run worker_func rest
      | .getError => worker_run worker_func rest
      | .item none => ⟨0, 0, some .sentinel⟩
      | .item (some d) =>
        let o := worker_run worker_func rest
        match worker_func d with
        | .ok _ => ⟨o.tasksDone + 1, o.errorsCaught, o.exit⟩
        | .error _ => ⟨o.tasksDone + 1, o.errorsCaught + 1, o.exit⟩

/-- Claim C10: a worker is never terminated by an exception from
worker_func.  For every item with data, whatever worker_func returns or
raises, the item is marked done and the loop continues identically to the
remaining trace; timeouts and read errors continue the loop; and the loop
exits only on running = false or on the None sentinel. -/
theorem C10_worker_survives_worker_func_errors {τ ε ρ : Type}
    (worker_func : τ → Except ε ρ) (d : τ) (rest : List (Bool × WorkerEvent τ)) :
    ((worker_run worker_func ((true, .item (some d)) :: rest)).exit =
        (worker_run worker_func rest).exit ∧
      (worker_run worker_func ((true, .item (some d)) :: rest)).tasksDone =
        (worker_run worker_func rest).tasksDone + 1) ∧
    (∀ e, worker_func d = .error e →
      worker_run worker_func ((true, .item (some d)) :: rest) =
        ⟨(worker_run worker_func rest).tasksDone + 1,
          (worker_run worker_func rest).errorsCaught + 1,
          (worker_run worker_func rest).exit⟩) ∧
    (worker_run worker_func ((true, .timeout) :: rest) = worker_run worker_func rest ∧
      worker_run worker_func ((true, .getError) :: rest) = worker_run worker_func rest) ∧
    (∀ ev, worker_run worker_func ((false, ev) :: rest) = ⟨0, 0, some .notRunning⟩) ∧
    (worker_run worker_func ((true, .item none) :: rest) = ⟨0, 0, some .sentinel⟩) := by
  refine ⟨⟨?_, ?_⟩, ?_, ⟨rfl, rfl⟩, fun ev => rfl, rfl⟩
  · rcases h : worker_func d with v | e <;> simp [worker_run, h]
  · rcases h : worker_func d with v | e <;> simp [worker_run, h]
  · intro e he
    simp [worker_run, he]

/-- Witness for C10: the worker over a concrete trace with an
always-raising worker function still marks the item done and then exits on
the sentinel, via the claim theorem. -/
theorem C10_witness :
    worker_run (fun _ : Nat => (Except.error "boom" : Except String Nat))
        ((true, .item (some 5)) :: [(true, .item none)]) =
      ⟨1, 1, some .sentinel⟩ := by
  rw [(C10_worker_survives_worker_func_errors
    (fun _ : Nat => (Except.error "boom" : Except String Nat)) 5
    [(true, .item none)]).2.1 "boom" rfl]
  rfl

/-! ## SpiderService admission (src/services/spider_service.py)

The UrlQueue table is modelled as a function from URL to an optional row;
the in-memory AsyncQueue as its element count (asyncio.PriorityQueue is
full when its size reaches maxsize, and AsyncQueue.enqueue raises
QueueException on a full queue, which enqueue_url catches and turns into
False after the database commit).  The URL filter, the priority policy
exclusion and the policy priority are abstract parameters, absent
collaborators being the constant false / identity cases.  Timestamp and
error-message columns are omitted: the claims only concern status,
priority and processing_count. -/

/-- One row of the url_queue table. -/
structure UrlRecord where
  status : String
  priority : Int
  processing_count : Int
deriving DecidableEq

/-- The url_queue table. -/
def UrlStore : Type := String → Option UrlRecord

/-- Point update of the table. -/
def storeSet (st : UrlStore) (u : String) (r : UrlRecord) : UrlStore :=
  fun v => if v = u then some r else st v

/-- The SpiderService collaborators and flags that admission reads. -/
structure SpiderCfg where
  running : Bool
  hasQueue : Bool
  max_queue_size : Nat
  filterExcludes : String → Bool
  policyConfigured : Bool
  policyExcludes : String → Bool
  policyPriority : String → Int

/-- SpiderService.enqueue_url (lines 298-357): filter and policy checks,
then a transaction that rejects done and poisoned rows, updates or inserts
a pending row, and finally pushes to the in-memory queue; a full queue
raises inside the try and the handler returns False.  Returns the reported
admission, the table and the in-memory queue size. -/
def enqueue_url (cfg : SpiderCfg) (store : UrlStore) (qsize : Nat)
    (url : String) (priority : Int) : Bool × UrlStore × Nat :=
  if ¬ cfg.running then (false, store, qsize)
  else if cfg.filterExcludes url then (false, store, qsize)
  else if cfg.policyExcludes url then (false, store, qsize)
  else
    let priority := if priority = 0 ∧ cfg.policyConfigured then cfg.policyPriority url else priority
    match store url with
    | some existing =>
      if existing.status = "done" then (false, store, qsize)
      else if existing.processing_count ≤ -5 then (false, store, qsize)
      else
        let store := storeSet store url { existing with status := "pending", priority := priority }
        if cfg.hasQueue then
          if cfg.max_queue_size ≤ qsize then (false, store, qsize)
          else (true, store, qsize + 1)
        else (false, store, qsize)
    | none =>
      let store := storeSet store url ⟨"pending", priority, 0⟩
      if cfg.hasQueue then
        if cfg.max_queue_size ≤ qsize then (false, store, qsize)
        else (true, store, qsize + 1)
      else (false, store, qsize)

/-- The body of the per-link loop of SpiderService._enqueue_article_links
(lines 189-248) for one link that already carries its interleaved
priority: stop when not running or the queue is full, skip filtered,
done and poisoned links, otherwise update or insert the row and push. -/
def enqueue_article_link (cfg : SpiderCfg) (store : UrlStore) (qsize : Nat)
    (link : String) (priority : Int) : Bool × UrlStore × Nat :=
  if ¬ cfg.running then (false, store, qsize)
  else if cfg.max_queue_size ≤ qsize then (false, store, qsize)
  else if cfg.filterExcludes link then (false, store, qsize)
  else if cfg.policyExcludes link then (false, store, qsize)
  else
    match store link with
    | some existing =>
      if existing.status = "done" then (false, store, qsize)
      else if existing.processing_count ≤ -5 then (false, store, qsize)
      else
        let store := storeSet store link { existing with status := "pending", priority := priority }
        if cfg.hasQueue then (true, store, qsize + 1) else (false, store, qsize)
    | none =>
      let store := storeSet store link ⟨"pending", priority, 0⟩
      if cfg.hasQueue then (true, store, qsize + 1) else (false, store, qsize)

/-- Claim C1: a URL already stored with status done, and a URL stored with
processing_count at most -5, is never admitted: enqueue_url returns False
and leaves the table untouched, for every priority and every collaborator
configuration, and the per-link admission of _enqueue_article_links
behaves the same way. -/
theorem C1_done_and_poisoned_never_readmitted
    (cfg : SpiderCfg) (store : UrlStore) (qsize : Nat) (u : String) (p : Int)
    (r : UrlRecord) (hu : store u = some r)
    (hterm : r.status = "done" ∨ r.processing_count ≤ -5) :
    (enqueue_url cfg store qsize u p).1 = false ∧
    (enqueue_url cfg store qsize u p).2.1 = store ∧
    (enqueue_url cfg store qsize u p).2.2 = qsize ∧
    (enqueue_article_link cfg store qsize u p).1 = false ∧
    (enqueue_article_link cfg store qsize u p).2.1 = store ∧
    (enqueue_article_link cfg store qsize u p).2.2 = qsize := by
  unfold enqueue_url enqueue_article_link
  rw [hu]
  rcases hterm with hdone | hpois
  · by_cases h1 : cfg.running
    all_goals by_cases h2 : cfg.filterExcludes u
    all_goals by_cases h3 : cfg.policyExcludes u
    all_goals by_cases h4 : cfg.max_queue_size ≤ qsize
    all_goals simp [h1, h2, h3, h4, hdone]
  · by_cases h1 : cfg.running
    all_goals by_cases h2 : cfg.filterExcludes u
    all_goals by_cases h3 : cfg.policyExcludes u
    all_goals by_cases h4 : cfg.max_queue_size ≤ qsize
    all_goals by_cases h5 : r.status = "done"
    all_goals simp [h1, h2, h3, h4, h5, hpois]

/-- Concrete table for the C1 witness: one URL already crawled. -/
def spiderStoreW : UrlStore :=
  fun v => if v = "https://done.example/story-1" then some ⟨"done", 0, 1⟩ else none

/-- Concrete collaborators for the C1 witness: running spider, queue
present, permissive filter and policy. -/
def spiderCfgW : SpiderCfg :=
  ⟨true, true, 876, fun _ => false, false, fun _ => false, fun _ => 0⟩

/-- Witness for C1: the admission theorem applied to a concrete store
holding a done row. -/
theorem C1_witness :
    spiderStoreW "https://done.example/story-1" = some ⟨"done", 0, 1⟩ ∧
    (enqueue_url spiderCfgW spiderStoreW 0 "https://done.example/story-1" (-10)).1 = false := by
  refine ⟨by decide, ?_⟩
  exact (C1_done_and_poisoned_never_readmitted spiderCfgW spiderStoreW 0
    "https://done.example/story-1" (-10) ⟨"done", 0, 1⟩ (by decide) (Or.inl rfl)).1

/-! ## HtmlCleaner: parsed documents (src/plugins/html_cleaner.py)

A parsed BeautifulSoup tree is a forest of nodes, a node being a text
node or an element with a tag, an attribute list and child nodes.  The
steps of the cleaning pipeline iterate over a statically computed node
list in document order and mutate in place; since every deletion
predicate below depends only on the subtree of the deleted node, and a
deleted node is deleted together with its whole subtree, each single-pass
step is modelled as one top-down traversal, and each fixed-point step
(collapse_wrappers, deep_prune_empty) as the bottom-up computation of the
normal form that its loop reaches. -/

mutual
inductive HNode where
  | text (s : String)
  | elem (tag : String) (attrs : List (String × String)) (children : HForest)
deriving DecidableEq
inductive HForest where
  | nil
  | cons (n : HNode) (l : HForest)
deriving DecidableEq
end

/-- Model of bs4 tag.get(name): first value stored under the attribute
name. -/
def attrLookup : List (String × String) → String → Option String
  | [], _ => none
  | (k, v) :: rest, name => if k = name then some v else attrLookup rest name

mutual
/-- Model of tag.get_text(strip=True): the stripped text descendants
joined in document order. -/
def HNode.textStrip : HNode → String
  | .text s => stripWs s
  | .elem _ _ c => c.textStrip
def HForest.textStrip : HForest → String
  | .nil => ""
  | .cons n l => n.textStrip ++ l.textStrip
end

/-- The element children of a forest, in order.  An element descendant
exists exactly when an element child does, so tag.find(True) is not None
iff this list is nonempty. -/
def HForest.elems : HForest → List HNode
  | .nil => []
  | .cons (.elem t a c) l => .elem t a c :: l.elems
  | .cons (.text _) l => l.elems

@[simp] theorem HForest.elems_nil : HForest.nil.elems = [] := rfl

@[simp] theorem HForest.elems_cons_text (s : String) (l : HForest) :
    (HForest.cons (.text s) l).elems = l.elems := rfl

@[simp] theorem HForest.elems_cons_elem (t : String) (a : List (String × String))
    (c : HForest) (l : HForest) :
    (HForest.cons (.elem t a c) l).elems = .elem t a c :: l.elems := rfl

mutual
/-- Deletion of every node satisfying p, checked top-down on the original
subtree (find_all computes its node list before the loop mutates, and
document order visits a node before its descendants). -/
def HNode.removeIf (p : HNode → Bool) : HNode → Option HNode
  | .text s => some (.text s)
  | .elem t a c => if p (.elem t a c) then none else some (.elem t a (c.removeIf p))
def HForest.removeIf (p : HNode → Bool) : HForest → HForest
  | .nil => .nil
  | .cons n l =>
    match n.removeIf p with
    | none => l.removeIf p
    | some n2 => .cons n2 (l.removeIf p)
end

mutual
/-- Rewriting of every attribute list of the document. -/
def HNode.mapAttrs (f : List (String × String) → List (String × String)) : HNode → HNode
  | .text s => .text s
  | .elem t a c => .elem t (f a) (c.mapAttrs f)
def HForest.mapAttrs (f : List (String × String) → List (String × String)) : HForest → HForest
  | .nil => .nil
  | .cons n l => .cons (n.mapAttrs f) (l.mapAttrs f)
end

/-- Step 1, clean: basic normalization, the identity. -/
def clean (d : HForest) : HForest := d

/-- Step 2, remove_scripts: delete script elements except those of type
application/ld+json. -/
def remove_scripts (d : HForest) : HForest :=
  d.removeIf (fun n =>
    match n with
    | .elem t a _ => t = "script" ∧ attrLookup a "type" ≠ some "application/ld+json"
    | .text _ => false)

/-- Step 3, remove_css: delete style elements, then strip the style
attribute from every element (two find_all loops in the source). -/
def remove_css (d : HForest) : HForest :=
  (d.removeIf (fun n =>
    match n with
    | .elem t _ _ => t = "style"
    | .text _ => false)).mapAttrs (List.filter (fun kv => kv.1 ≠ "style"))

/-- Step 4, remove_iframes. -/
def remove_iframes (d : HForest) : HForest :=
  d.removeIf (fun n =>
    match n with
    | .elem t _ _ => t = "iframe"
    | .text _ => false)

/-- Step 5, remove_svg. -/
def remove_svg (d : HForest) : HForest :=
  d.removeIf (fun n =>
    match n with
    | .elem t _ _ => t = "svg"
    | .text _ => false)

/-- The JUNK_WORDS set literal of remove_junk_text_blocks, exactly as the
source has it: the missing comma after "you may like" makes Python
concatenate the two adjacent string literals into a single element, so
the set has six elements, not seven. -/
def JUNK_WORDS : List String :=
  ["advertisement", "sponsored", "promoted", "related articles", "recommended",
   "you may like" ++ "Newsletters"]

/-- Step 6, remove_junk_text_blocks: delete any element whose trimmed,
lower-cased text is in JUNK_WORDS. -/
def remove_junk_text_blocks (d : HForest) : HForest :=
  d.removeIf (fun n =>
    match n with
    | .elem _ _ _ => lowerStr n.textStrip ∈ JUNK_WORDS
    | .text _ => false)

/-- Step 7, remove_all_classes_and_ids. -/
def remove_all_classes_and_ids (d : HForest) : HForest :=
  d.mapAttrs (List.filter (fun kv => kv.1 ≠ "class" ∧ kv.1 ≠ "id"))

/-- The tag list of remove_empty_tags. -/
def removableTags : List String :=
  ["div", "span", "section", "article", "p", "aside", "header", "footer"]

/-- Step 8, remove_empty_tags: one pass deleting the listed tags that have
no stripped text and no element descendant.  Such nodes have no element
descendants at all, so the single find_all pass of the source deletes
exactly the nodes that are empty in the tree it started from. -/
def remove_empty_tags (d : HForest) : HForest :=
  d.removeIf (fun n =>
    match n with
    | .elem t _ c => t ∈ removableTags ∧ c.textStrip = "" ∧ c.elems = []
    | .text _ => false)

mutual
/-- Step 9, aggressive_cleanup on a node: drop empty-valued attributes
everywhere; extract a whitespace-only tag.string.  A nonempty .string of
a deeper single-child chain is extracted when the outermost chain element
is visited; the final tree is the same as extracting it at its parent,
which is what this recursion does. -/
def HNode.aggressive : HNode → HNode
  | .text s => .text s
  | .elem t a c =>
    let a2 := a.filter (fun kv => kv.2 ≠ "")
    match c with
    | .cons (.text s) .nil =>
      if s ≠ "" ∧ stripWs s = "" then .elem t a2 .nil
      else .elem t a2 (HForest.cons (.text s) .nil)
    | _ => .elem t a2 (c.aggressive)
def HForest.aggressive : HForest → HForest
  | .nil => .nil
  | .cons n l => .cons n.aggressive l.aggressive
end

/-- Step 9 on the document. -/
def aggressive_cleanup (d : HForest) : HForest := d.aggressive

mutual
/-- First element named body, in document preorder (bs4 soup.body). -/
def HNode.findBody : HNode → Option HNode
  | .text _ => none
  | .elem t a c => if t = "body" then some (.elem t a c) else c.findBody
def HForest.findBody : HForest → Option HNode
  | .nil => none
  | .cons n l =>
    match n.findBody with
    | some b => some b
    | none => l.findBody
end

/-- Step 10, keep_only_body: reparse str(body) with lxml, which wraps the
body subtree in a fresh html element; without a body the document is kept
unchanged. -/
def keep_only_body (d : HForest) : HForest :=
  match d.findBody with
  | some b => .cons (.elem "html" [] (.cons b .nil)) .nil
  | none => d

/-- Step 11, remove_layout_tags. -/
def remove_layout_tags (d : HForest) : HForest :=
  d.removeIf (fun n =>
    match n with
    | .elem t _ _ => t ∈ ["nav", "aside", "footer", "header", "menu"]
    | .text _ => false)

mutual
/-- Step 12, collapse_wrappers on a node: the loop replaces any div whose
element-children count is exactly one by that child (dropping the div
attributes and its text children) until a pass changes nothing.  The
rewriting terminates and is confluent, and this bottom-up recursion
computes its normal form. -/
def HNode.collapse : HNode → HNode
  | .text s => .text s
  | .elem t a c =>
    if t = "div" then
      match c.collapse.elems with
      | [x] => x
      | _ => .elem t a c.collapse
    else .elem t a c.collapse
def HForest.collapse : HForest → HForest
  | .nil => .nil
  | .cons n l => .cons n.collapse l.collapse
end

/-- Step 12 on the document. -/
def collapse_wrappers (d : HForest) : HForest := d.collapse

mutual
/-- Step 13, deep_prune_empty on a node: the loop deletes div, span and
section nodes with no stripped text and no element child until a pass
deletes nothing, cascading upwards; the bottom-up recursion computes the
same normal form. -/
def HNode.deepPrune : HNode → Option HNode
  | .text s => some (.text s)
  | .elem t a c =>
    if (t = "div" ∨ t = "span" ∨ t = "section") ∧ c.deepPrune.textStrip = "" ∧ c.deepPrune.elems = []
    then none
    else some (.elem t a c.deepPrune)
def HForest.deepPrune : HForest → HForest
  | .nil => .nil
  | .cons n l =>
    match n.deepPrune with
    | none => l.deepPrune
    | some n2 => .cons n2 (l.deepPrune)
end

/-- Step 13 on the document. -/
def deep_prune_empty (d : HForest) : HForest := d.deepPrune

/-- GenericScraper._run_cleaning_pipeline: the thirteen steps in source
order. -/
def run_cleaning_pipeline (d : HForest) : HForest :=
  deep_prune_empty (collapse_wrappers (remove_layout_tags (keep_only_body
    (aggressive_cleanup (remove_empty_tags (remove_all_classes_and_ids
      (remove_junk_text_blocks (remove_svg (remove_iframes
        (remove_css (remove_scripts (clean d))))))))))))

/-- A document with junk-candidate blocks: a div saying newsletters, a div
saying you may like, a div saying advertisement and a paragraph. -/
def junkDoc : HForest :=
  .cons (.elem "html" [] (.cons (.elem "body" []
    (.cons (.elem "div" [] (.cons (.text "newsletters") .nil))
    (.cons (.elem "div" [] (.cons (.text "you may like") .nil))
    (.cons (.elem "div" [] (.cons (.text "advertisement") .nil))
    (.cons (.elem "p" [] (.cons (.text "keep") .nil)) .nil))))) .nil)) .nil

/-- Claim C6 evaluation: because the source set literal is missing a comma
after "you may like", the adjacent literals concatenate; JUNK_WORDS has
six entries, neither "newsletters" nor "you may like" is one of them, and
remove_junk_text_blocks keeps both blocks (while still deleting the
advertisement block). -/
theorem C6_newsletters_not_deleted :
    remove_junk_text_blocks junkDoc =
      .cons (.elem "html" [] (.cons (.elem "body" []
        (.cons (.elem "div" [] (.cons (.text "newsletters") .nil))
        (.cons (.elem "div" [] (.cons (.text "you may like") .nil))
        (.cons (.elem "p" [] (.cons (.text "keep") .nil)) .nil)))) .nil)) .nil ∧
    JUNK_WORDS.length = 6 ∧
    "newsletters" ∉ JUNK_WORDS ∧
    "you may like" ∉ JUNK_WORDS ∧
    "you may likeNewsletters" ∈ JUNK_WORDS := by
  refine ⟨by decide, by decide, by decide, by decide, by decide⟩

/-! ## Idempotence of the fixed-point cleaning steps (claim C2) -/

mutual
/-- No div anywhere in the subtree has exactly one element child: the
normal forms of the collapse_wrappers rewriting. -/
def HNode.noUnaryDiv : HNode → Bool
  | .text _ => true
  | .elem t _ c => (decide ¬(t = "div" ∧ c.elems.length = 1)) && c.noUnaryDiv
def HForest.noUnaryDiv : HForest → Bool
  | .nil => true
  | .cons n l => n.noUnaryDiv && l.noUnaryDiv
end

theorem HNode.noUnaryDiv_elem (t : String) (a : List (String × String)) (c : HForest) :
    (HNode.elem t a c).noUnaryDiv =
      ((decide ¬(t = "div" ∧ c.elems.length = 1)) && c.noUnaryDiv) := rfl

theorem HForest.noUnaryDiv_cons (n : HNode) (l : HForest) :
    (HForest.cons n l).noUnaryDiv = (n.noUnaryDiv && l.noUnaryDiv) := rfl

theorem HNode.collapse_elem (t : String) (a : List (String × String)) (c : HForest) :
    (HNode.elem t a c).collapse =
      (if t = "div" then
        match c.collapse.elems with
        | [x] => x
        | _ => .elem t a c.collapse
      else .elem t a c.collapse) := rfl

theorem HForest.collapse_cons (n : HNode) (l : HForest) :
    (HForest.cons n l).collapse = .cons n.collapse l.collapse := rfl

theorem HForest.noUnaryDiv_elems : ∀ (f : HForest), f.noUnaryDiv = true →
    ∀ x ∈ f.elems, x.noUnaryDiv = true
  | .nil => fun _ x hx => absurd hx (List.not_mem_nil x)
  | .cons (.text s) l => by
    intro h x hx
    rw [HForest.noUnaryDiv_cons, Bool.and_eq_true] at h
    exact HForest.noUnaryDiv_elems l h.2 x hx
  | .cons (.elem t a c) l => by
    intro h x hx
    rw [HForest.noUnaryDiv_cons, Bool.and_eq_true] at h
    have hx2 : x = HNode.elem t a c ∨ x ∈ l.elems := List.mem_cons.mp hx
    rcases hx2 with rfl | hx3
    · exact h.1
    · exact HForest.noUnaryDiv_elems l h.2 x hx3

mutual
theorem HNode.collapse_sound : ∀ n : HNode, n.collapse.noUnaryDiv = true
  | .text s => rfl
  | .elem t a c => by
    have hc := HForest.collapse_sound_forest c
    by_cases ht : t = "div"
    · subst ht
      rcases hel : c.collapse.elems with - | ⟨x, - | ⟨y, rest⟩⟩
      · rw [HNode.collapse_elem, if_pos rfl, hel]
        show (HNode.elem "div" a c.collapse).noUnaryDiv = true
        rw [HNode.noUnaryDiv_elem, hel, hc]
        simp
      · rw [HNode.collapse_elem, if_pos rfl, hel]
        show x.noUnaryDiv = true
        exact HForest.noUnaryDiv_elems c.collapse hc x
          (by rw [hel]; exact List.mem_singleton_self x)
      · rw [HNode.collapse_elem, if_pos rfl, hel]
        show (HNode.elem "div" a c.collapse).noUnaryDiv = true
        rw [HNode.noUnaryDiv_elem, hel, hc]
        simp
    · rw [HNode.collapse_elem, if_neg ht, HNode.noUnaryDiv_elem, hc]
      simp [ht]
theorem HForest.collapse_sound_forest : ∀ f : HForest, f.collapse.noUnaryDiv = true
  | .nil => rfl
  | .cons n l => by
    rw [HForest.collapse_cons, HForest.noUnaryDiv_cons,
      HNode.collapse_sound n, HForest.collapse_sound_forest l]
    rfl
end

mutual
theorem HNode.collapse_fixed : ∀ n : HNode, n.noUnaryDiv = true → n.collapse = n
  | .text s => fun _ => rfl
  | .elem t a c => by
    intro h
    rw [HNode.noUnaryDiv_elem, Bool.and_eq_true] at h
    have hcc : c.collapse = c := HForest.collapse_fixed_forest c h.2
    rw [HNode.collapse_elem, hcc]
    by_cases ht : t = "div"
    · subst ht
      rw [if_pos rfl]
      rcases hel : c.elems with - | ⟨x, - | ⟨y, rest⟩⟩
      · rfl
      · exfalso
        exact (decide_eq_true_eq.mp h.1) ⟨rfl, by rw [hel]; rfl⟩
      · rfl
    · rw [if_neg ht]
theorem HForest.collapse_fixed_forest : ∀ f : HForest, f.noUnaryDiv = true → f.collapse = f
  | .nil => fun _ => rfl
  | .cons n l => by
    intro h
    rw [HForest.noUnaryDiv_cons, Bool.and_eq_true] at h
    rw [HForest.collapse_cons, HNode.collapse_fixed n h.1, HForest.collapse_fixed_forest l h.2]
end

mutual
/-- No div, span or section anywhere in the subtree is empty: the normal
forms of the deep_prune_empty rewriting. -/
def HNode.noEmptyDss : HNode → Bool
  | .text _ => true
  | .elem t _ c =>
    (decide ¬((t = "div" ∨ t = "span" ∨ t = "section") ∧ c.textStrip = "" ∧ c.elems = [])) &&
      c.noEmptyDss
def HForest.noEmptyDss : HForest → Bool
  | .nil => true
  | .cons n l => n.noEmptyDss && l.noEmptyDss
end

theorem HNode.deepPrune_elem (t : String) (a : List (String × String)) (c : HForest) :
    (HNode.elem t a c).deepPrune =
      (if (t = "div" ∨ t = "span" ∨ t = "section") ∧
          c.deepPrune.textStrip = "" ∧ c.deepPrune.elems = []
      then none
      else some (.elem t a c.deepPrune)) := rfl

theorem HForest.deepPrune_cons (n : HNode) (l : HForest) :
    (HForest.cons n l).deepPrune =
      (match n.deepPrune with
       | none => l.deepPrune
       | some n2 => .cons n2 l.deepPrune) := rfl

theorem HNode.noEmptyDss_elem (t : String) (a : List (String × String)) (c : HForest) :
    (HNode.elem t a c).noEmptyDss =
      ((decide ¬((t = "div" ∨ t = "span" ∨ t = "section") ∧
          c.textStrip = "" ∧ c.elems = [])) && c.noEmptyDss) := rfl

theorem HForest.noEmptyDss_cons (n : HNode) (l : HForest) :
    (HForest.cons n l).noEmptyDss = (n.noEmptyDss && l.noEmptyDss) := rfl

mutual
theorem HNode.deepPrune_sound : ∀ (n n2 : HNode), n.deepPrune = some n2 → n2.noEmptyDss = true
  | .text s => fun n2 h => by cases h; rfl
  | .elem t a c => fun n2 h => by
    rw [HNode.deepPrune_elem] at h
    by_cases hcond : (t = "div" ∨ t = "span" ∨ t = "section") ∧
        c.deepPrune.textStrip = "" ∧ c.deepPrune.elems = []
    · rw [if_pos hcond] at h
      exact absurd h (by simp)
    · rw [if_neg hcond] at h
      have h2 := Option.some_inj.mp h
      subst h2
      rw [HNode.noEmptyDss_elem, Bool.and_eq_true]
      constructor
      · rw [decide_eq_true_eq]; exact hcond
      · exact HForest.deepPrune_sound_forest c
theorem HForest.deepPrune_sound_forest : ∀ f : HForest, f.deepPrune.noEmptyDss = true
  | .nil => rfl
  | .cons n l => by
    rw [HForest.deepPrune_cons]
    rcases hn : n.deepPrune with - | n2
    · exact HForest.deepPrune_sound_forest l
    · show (HForest.cons n2 l.deepPrune).noEmptyDss = true
      rw [HForest.noEmptyDss_cons, Bool.and_eq_true]
      exact ⟨HNode.deepPrune_sound n n2 hn, HForest.deepPrune_sound_forest l⟩
end

mutual
theorem HNode.deepPrune_fixed : ∀ n : HNode, n.noEmptyDss = true → n.deepPrune = some n
  | .text s => fun _ => rfl
  | .elem t a c => by
    intro h
    rw [HNode.noEmptyDss_elem, Bool.and_eq_true] at h
    have hcc : c.deepPrune = c := HForest.deepPrune_fixed_forest c h.2
    rw [HNode.deepPrune_elem, hcc, if_neg (decide_eq_true_eq.mp h.1)]
theorem HForest.deepPrune_fixed_forest : ∀ f : HForest, f.noEmptyDss = true → f.deepPrune = f
  | .nil => fun _ => rfl
  | .cons n l => by
    intro h
    rw [HForest.noEmptyDss_cons, Bool.and_eq_true] at h
    rw [HForest.deepPrune_cons, HNode.deepPrune_fixed n h.1, HForest.deepPrune_fixed_forest l h.2]
end

/-- A document whose article wraps only layout: html body article nav. -/
def nestedLayoutDoc : HForest :=
  .cons (.elem "html" [] (.cons (.elem "body" []
    (.cons (.elem "article" [] (.cons (.elem "nav" [] (.cons (.text "hi") .nil)) .nil)) .nil)) .nil)) .nil

/-- Claim C2 counterexample: the thirteen-step pipeline is not idempotent.
On nestedLayoutDoc the first pass deletes the nav in step 11, after step 8
has already run, leaving an empty article that only the second pass's
remove_empty_tags deletes, so the two results differ. -/
theorem C2_counterexample :
    run_cleaning_pipeline (run_cleaning_pipeline nestedLayoutDoc) ≠
      run_cleaning_pipeline nestedLayoutDoc := by decide

/-- Claim C2 (amended): the full pipeline is not idempotent, but its two
fixed-point steps are: collapse_wrappers and deep_prune_empty each leave
their own output unchanged when applied a second time, on every
document. -/
theorem C2_fixed_point_steps_idempotent (d : HForest) :
    collapse_wrappers (collapse_wrappers d) = collapse_wrappers d ∧
    deep_prune_empty (deep_prune_empty d) = deep_prune_empty d :=
  ⟨HForest.collapse_fixed_forest (collapse_wrappers d) (HForest.collapse_sound_forest d),
   HForest.deepPrune_fixed_forest (deep_prune_empty d) (HForest.deepPrune_sound_forest d)⟩

/-! ## HtmlCleaner.extract_article_links (src/plugins/html_cleaner.py 255-295) -/

mutual
/-- The href attribute values of the anchor elements, in document order
(the find_all("a") loop reads a.get("href") for each anchor; anchors
without the attribute contribute nothing, and the loop skips falsy
values itself). -/
def HNode.hrefs : HNode → List String
  | .text _ => []
  | .elem t a c =>
    (if t = "a" then
      match attrLookup a "href" with
      | some v => [v]
      | none => []
    else []) ++ c.hrefs
def HForest.hrefs : HForest → List String
  | .nil => []
  | .cons n l => n.hrefs ++ l.hrefs
end

/-- The reassignment href = f"https://{base_domain}{href}" applied to
root-relative hrefs (reached only when base_domain is truthy). -/
def absolutize (bd href : String) : String :=
  if strStarts href "/" then "https://" ++ bd ++ href else href

/-- The per-anchor body of extract_article_links, for base_domain bd (the
empty string standing for the equally falsy None and empty netloc):
skip falsy hrefs; skip root-relative hrefs when bd is empty, absolutize
them against https://bd otherwise; when bd is nonempty require the
(possibly absolutized) href to start with https://bd; strip the query;
require length at least 80; require the trailing -digits id.  Returns
the admitted URL. -/
def article_link_of (bd : String) (href : String) : Option String :=
  if href = "" then none
  else if strStarts href "/" ∧ bd = "" then none
  else if bd ≠ "" ∧ ¬ strStarts (absolutize bd href) ("https://" ++ bd) then none
  else if (stripQuery (absolutize bd href)).length < 80 then none
  else if ¬ endsDashDigits (stripQuery (absolutize bd href)) then none
  else some (stripQuery (absolutize bd href))

/-- base_domain: urlparse(base_url).netloc when base_url is truthy, with
the empty string standing for None. -/
def base_domain_of : Option String → String
  | none => ""
  | some b => urlHost b

/-- HtmlCleaner.extract_article_links: the Python set of admitted links is
modelled as the list of admitted links, membership being the set
semantics. -/
def extract_article_links (d : HForest) (base_url : Option String) : List String :=
  (d.hrefs).filterMap (article_link_of (base_domain_of base_url))


theorem listStarts_nil (l : List Char) : listStarts l [] = true := by
  cases l <;> rfl

theorem listStarts_append (l m : List Char) : listStarts (l ++ m) l = true := by
  induction l with
  | nil => exact listStarts_nil m
  | cons a as ih => simp [listStarts, ih]

theorem listStarts_takeWhile (p l : List Char) (h : listStarts l p = true)
    (hp : ∀ c ∈ p, c ≠ '?') : listStarts (l.takeWhile (· ≠ '?')) p = true := by
  induction p generalizing l with
  | nil => exact listStarts_nil _
  | cons b bs ih =>
    cases l with
    | nil => exact absurd h (by simp [listStarts])
    | cons a as =>
      rw [listStarts, Bool.and_eq_true, decide_eq_true_eq] at h
      have hab : a ≠ '?' := h.1 ▸ hp b (List.mem_cons_self b bs)
      rw [List.takeWhile_cons, if_pos (by simpa using hab)]
      rw [listStarts, Bool.and_eq_true, decide_eq_true_eq]
      exact ⟨h.1, ih as h.2 (fun c hc => hp c (List.mem_cons_of_mem b hc))⟩

theorem urlHost_no_qmark (b : String) : ∀ c ∈ (urlHost b).data, c ≠ '?' := by
  intro c hc hq
  subst hq
  unfold urlHost at hc
  split_ifs at hc
  · have h2 := List.mem_takeWhile_imp hc
    simp [hostDelim] at h2
  · have h2 := List.mem_takeWhile_imp hc
    simp [hostDelim] at h2
  · simp at hc

theorem no_qmark_in_scheme_host (b : String) :
    ∀ c ∈ ("https://" ++ urlHost b).data, c ≠ '?' := by
  intro c hc
  rw [String.data_append] at hc
  rcases List.mem_append.mp hc with h1 | h2
  · have hsch : ∀ x ∈ ("https://" : String).data, x ≠ '?' := by decide
    exact hsch c h1
  · exact urlHost_no_qmark b c h2

theorem stripQuery_keeps_start (s p : String) (h : strStarts s p = true)
    (hp : ∀ c ∈ p.data, c ≠ '?') : strStarts (stripQuery s) p = true := by
  show listStarts (s.data.takeWhile (· ≠ '?')) p.data = true
  exact listStarts_takeWhile p.data s.data h hp

/-- Claim C5 (amended): with a base URL carrying a nonempty host, every
URL returned by extract_article_links starts with the string
https://{base host} (a string prefix check, not host equality), has
length at least 80 after query stripping, and ends - as a whole string -
with a hyphen followed by digits. -/
theorem C5_extract_article_links_shape (d : HForest) (b : String)
    (hb : urlHost b ≠ "") :
    ∀ u ∈ extract_article_links d (some b),
      strStarts u ("https://" ++ urlHost b) = true ∧
      80 ≤ u.length ∧ endsDashDigits u = true := by
  intro u hu
  have hbd : base_domain_of (some b) = urlHost b := rfl
  unfold extract_article_links at hu
  rw [hbd] at hu
  rcases List.mem_filterMap.mp hu with ⟨href, hmem, hf⟩
  unfold article_link_of at hf
  by_cases h0 : href = ""
  · rw [if_pos h0] at hf; exact absurd hf (by simp)
  rw [if_neg h0] at hf
  by_cases hrel : strStarts href "/" = true ∧ urlHost b = ""
  · rw [if_pos hrel] at hf; exact absurd hf (by simp)
  rw [if_neg hrel] at hf
  by_cases hg : urlHost b ≠ "" ∧ ¬ strStarts (absolutize (urlHost b) href) ("https://" ++ urlHost b) = true
  · rw [if_pos hg] at hf; exact absurd hf (by simp)
  rw [if_neg hg] at hf
  have hstart : strStarts (absolutize (urlHost b) href) ("https://" ++ urlHost b) = true := by
    rcases not_and_or.mp hg with h | h
    · exact absurd hb (by simpa using h)
    · simpa using h
  by_cases h2 : (stripQuery (absolutize (urlHost b) href)).length < 80
  · rw [if_pos h2] at hf; exact absurd hf (by simp)
  rw [if_neg h2] at hf
  by_cases h3 : endsDashDigits (stripQuery (absolutize (urlHost b) href)) = true
  · rw [if_neg (fun hcon => hcon h3)] at hf
    rcases Option.some_inj.mp hf with rfl
    exact ⟨stripQuery_keeps_start _ _ hstart (no_qmark_in_scheme_host b), by omega, h3⟩
  · rw [if_pos (by simpa using h3)] at hf
    exact absurd hf (by simp)

/-- A page on https://example.com with two anchors: one to a foreign host
whose name merely extends the base host as a string, one same-host link
whose trailing digits come from its fragment, not its path. -/
def cexDoc : HForest :=
  .cons (.elem "html" [] (.cons (.elem "body" []
    (.cons (.elem "a"
      [("href", "https://example.com.attacker.net/markets/rally-extends-as-rate-cut-hopes-build-today-99")] .nil)
    (.cons (.elem "a"
      [("href", "https://example.com/business/long-analysis-of-rbi-credit-policy-and-markets#rates-2024")] .nil)
    .nil))) .nil)) .nil

/-- Claim C5 counterexample: extract_article_links admits a URL whose host
differs from the base host (the must-belong-to-site test is a string
prefix test), and admits a URL whose path does not match -\d+$ (the
regular expression is applied to the whole query-stripped URL, where a
fragment can supply the trailing digits). -/
theorem C5_counterexample :
    "https://example.com.attacker.net/markets/rally-extends-as-rate-cut-hopes-build-today-99" ∈
      extract_article_links cexDoc (some "https://example.com") ∧
    urlHost "https://example.com.attacker.net/markets/rally-extends-as-rate-cut-hopes-build-today-99" ≠
      urlHost "https://example.com" ∧
    "https://example.com/business/long-analysis-of-rbi-credit-policy-and-markets#rates-2024" ∈
      extract_article_links cexDoc (some "https://example.com") ∧
    endsDashDigits (urlPath
      "https://example.com/business/long-analysis-of-rbi-credit-policy-and-markets#rates-2024") = false := by
  exact ⟨by decide, by decide, by decide, by decide⟩

/-- Witness for C5: the amended shape theorem applied to the concrete
document, with the hypothesis discharged on the concrete base URL. -/
theorem C5_witness :
    urlHost "https://example.com" ≠ "" ∧
    (strStarts
        "https://example.com.attacker.net/markets/rally-extends-as-rate-cut-hopes-build-today-99"
        ("https://" ++ urlHost "https://example.com") = true ∧
      80 ≤ ("https://example.com.attacker.net/markets/rally-extends-as-rate-cut-hopes-build-today-99" : String).length ∧
      endsDashDigits
        "https://example.com.attacker.net/markets/rally-extends-as-rate-cut-hopes-build-today-99" = true) := by
  refine ⟨by decide, ?_⟩
  exact C5_extract_article_links_shape cexDoc "https://example.com" (by decide)
    "https://example.com.attacker.net/markets/rally-extends-as-rate-cut-hopes-build-today-99"
    (by decide)

/-- Claim C9: with base_url None, every admitted URL arises from a
non-root-relative href (root-relative hrefs are all skipped), and every
nonempty non-root-relative href of any host whatsoever is admitted as
soon as its query-stripped form has length at least 80 and trailing
-digits: the same-host requirement is silently dropped. -/
theorem C9_extract_article_links_no_base (d : HForest) :
    (∀ u ∈ extract_article_links d none,
      ∃ href ∈ d.hrefs, href ≠ "" ∧ strStarts href "/" = false ∧
        u = stripQuery href ∧ 80 ≤ u.length ∧ endsDashDigits u = true) ∧
    (∀ href ∈ d.hrefs, href ≠ "" → strStarts href "/" = false →
      80 ≤ (stripQuery href).length → endsDashDigits (stripQuery href) = true →
      stripQuery href ∈ extract_article_links d none) := by
  constructor
  · intro u hu
    unfold extract_article_links at hu
    rcases List.mem_filterMap.mp hu with ⟨href, hmem, hf⟩
    unfold article_link_of base_domain_of at hf
    by_cases h0 : href = ""
    · rw [if_pos h0] at hf; exact absurd hf (by simp)
    rw [if_neg h0] at hf
    by_cases hrel : strStarts href "/" = true
    · rw [if_pos ⟨hrel, rfl⟩] at hf; exact absurd hf (by simp)
    rw [if_neg (fun hcon => hrel hcon.1)] at hf
    rw [if_neg (by simp)] at hf
    have habs : absolutize "" href = href := by
      unfold absolutize
      rw [if_neg hrel]
    rw [habs] at hf
    by_cases h2 : (stripQuery href).length < 80
    · rw [if_pos h2] at hf; exact absurd hf (by simp)
    rw [if_neg h2] at hf
    by_cases h3 : endsDashDigits (stripQuery href) = true
    · rw [if_neg (fun hcon => hcon h3)] at hf
      rcases Option.some_inj.mp hf with rfl
      exact ⟨href, hmem, h0, by simpa using hrel, rfl, by omega, h3⟩
    · rw [if_pos (by simpa using h3)] at hf
      exact absurd hf (by simp)
  · intro href hm h0 hrel hlen hend
    have hsome : article_link_of (base_domain_of none) href = some (stripQuery href) := by
      unfold article_link_of base_domain_of
      have habs : absolutize "" href = href := by
        unfold absolutize
        rw [if_neg (by simp [hrel])]
      rw [if_neg h0, if_neg (fun hcon => by rw [hrel] at hcon; exact absurd hcon.1 (by simp)),
        if_neg (by simp), habs, if_neg (by omega), if_neg (fun hcon => hcon hend)]
    exact List.mem_filterMap.mpr ⟨href, hm, hsome⟩

/-- A page with a root-relative anchor and a foreign-host anchor, for the
C9 witness. -/
def c9Doc : HForest :=
  .cons (.elem "html" [] (.cons (.elem "body" []
    (.cons (.elem "a"
      [("href", "/markets/rally-extends-as-rate-cut-hopes-build-today-99")] .nil)
    (.cons (.elem "a"
      [("href", "https://foreign-host.example.org/world/global-markets-wrap-stocks-rise-on-soft-data-777")] .nil)
    .nil))) .nil)) .nil

/-- Witness for C9: on c9Doc with no base URL, the foreign-host link is
admitted, via the claim theorem with every hypothesis discharged on the
concrete values. -/
theorem C9_witness :
    ("https://foreign-host.example.org/world/global-markets-wrap-stocks-rise-on-soft-data-777" : String) ≠ "" ∧
    stripQuery "https://foreign-host.example.org/world/global-markets-wrap-stocks-rise-on-soft-data-777" ∈
      extract_article_links c9Doc none := by
  refine ⟨by decide, ?_⟩
  exact (C9_extract_article_links_no_base c9Doc).2
    "https://foreign-host.example.org/world/global-markets-wrap-stocks-rise-on-soft-data-777"
    (by decide) (by decide) (by decide) (by decide) (by decide)

/-! ## SpiderService._interleave_links_by_domain (spider_service.py 269-291)

priority_groups is an insertion-ordered dict of dicts, modelled by
association lists with append semantics; sorted(...) on the distinct keys
is modelled by insertion sort (any correct sort of a duplicate-free list
yields the same output); the while/for round robin is modelled by a
fuel-bounded pass recursion, the fuel being the total number of queued
links. -/

/-- domain = urlparse(link).netloc or "unknown". -/
def domainOf (u : String) : String :=
  if urlHost u = "" then "unknown" else urlHost u

/-- Append u to the queue of domain d, creating the bucket at the end on
first sight (dict setdefault plus list append). -/
def addToBuckets : List (String × List String) → String → String → List (String × List String)
  | [], d, u => [(d, [u])]
  | (d0, us) :: rest, d, u =>
    if d0 = d then (d0, us ++ [u]) :: rest
    else (d0, us) :: addToBuckets rest d u

/-- Append u under priority p and domain d (the outer setdefault). -/
def addToGroups : List (Int × List (String × List String)) → Int → String → String →
    List (Int × List (String × List String))
  | [], p, d, u => [(p, [(d, [u])])]
  | (p0, bs) :: rest, p, d, u =>
    if p0 = p then (p0, addToBuckets bs d u) :: rest
    else (p0, bs) :: addToGroups rest p d u

/-- The grouping loop of _interleave_links_by_domain. -/
def priority_groups (l : List (String × Int)) : List (Int × List (String × List String)) :=
  l.foldl (fun gs lp => addToGroups gs lp.2 (domainOf lp.1) lp.1) []

/-- Dict access priority_groups[priority]. -/
def lookupGroup : List (Int × List (String × List String)) → Int → List (String × List String)
  | [], _ => []
  | (p0, bs) :: rest, p => if p0 = p then bs else lookupGroup rest p

/-- Dict access domain_queues[domain]. -/
def lookupBucket : List (String × List String) → String → List String
  | [], _ => []
  | (d0, us) :: rest, d => if d0 = d then us else lookupBucket rest d

/-- Lexicographic comparison of character lists by code point, the order
Python sorted uses on strings. -/
def chLex : List Char → List Char → Bool
  | [], _ => true
  | _ :: _, [] => false
  | a :: as, b :: bs =>
    if a.toNat < b.toNat then true
    else if b.toNat < a.toNat then false
    else chLex as bs

/-- The string order used for sorted(domain_map.keys()). -/
def strLe (a b : String) : Prop := chLex a.data b.data = true

instance : DecidableRel strLe := fun a b => inferInstanceAs (Decidable (_ = true))

/-- Total number of queued links, the fuel of the round robin. -/
def sumLens (qs : List (List String)) : Nat := (qs.map List.length).sum

/-- The while-loop of the round robin: while some queue is nonempty, one
pass pops the head of every nonempty queue in domain order. -/
def roundRobinFuel : Nat → List (List String) → List String
  | 0, _ => []
  | n + 1, qs =>
    if qs.all List.isEmpty then []
    else (qs.filterMap List.head?) ++ roundRobinFuel n (qs.map List.tail)

/-- The round robin over the domain queues. -/
def roundRobin (qs : List (List String)) : List String :=
  roundRobinFuel (sumLens qs) qs

/-- SpiderService._interleave_links_by_domain. -/
def _interleave_links_by_domain (l : List (String × Int)) : List (String × Int) :=
  (List.insertionSort (· ≤ ·) ((priority_groups l).map Prod.fst)).flatMap (fun p =>
    (roundRobin ((List.insertionSort strLe ((lookupGroup (priority_groups l) p).map Prod.fst)).map
      (fun d => lookupBucket (lookupGroup (priority_groups l) p) d))).map (fun u => (u, p)))

/-- Well-formed domain queues: distinct domains, nonempty queues, every
queued link living under its own domain. -/
def BucketsWF (bs : List (String × List String)) : Prop :=
  (bs.map Prod.fst).Nodup ∧ ∀ du ∈ bs, du.2 ≠ [] ∧ ∀ u ∈ du.2, domainOf u = du.1

/-- Well-formed priority groups: distinct priorities, well-formed
queues. -/
def GroupsWF (gs : List (Int × List (String × List String))) : Prop :=
  (gs.map Prod.fst).Nodup ∧ ∀ pb ∈ gs, BucketsWF pb.2

/-- All links of a group of domain queues, in domain insertion order. -/
def bucketsFlat (bs : List (String × List String)) : List String :=
  bs.flatMap Prod.snd

/-- All (link, priority) pairs of the grouped structure. -/
def groupsFlat (gs : List (Int × List (String × List String))) : List (String × Int) :=
  gs.flatMap (fun pb => (bucketsFlat pb.2).map (fun u => (u, pb.1)))


theorem addToBuckets_cons (d0 : String) (us : List String)
    (rest : List (String × List String)) (d u : String) :
    addToBuckets ((d0, us) :: rest) d u =
      if d0 = d then (d0, us ++ [u]) :: rest
      else (d0, us) :: addToBuckets rest d u := rfl

theorem bucketsFlat_cons (d : String) (us : List String) (rest : List (String × List String)) :
    bucketsFlat ((d, us) :: rest) = us ++ bucketsFlat rest := by
  simp [bucketsFlat]

theorem mem_keys_addToBuckets (bs : List (String × List String)) (d u x : String) :
    x ∈ (addToBuckets bs d u).map Prod.fst ↔ x ∈ bs.map Prod.fst ∨ x = d := by
  induction bs with
  | nil => simp [addToBuckets]
  | cons du rest ih =>
    rcases du with ⟨d0, us⟩
    by_cases hd : d0 = d
    · subst hd
      rw [addToBuckets_cons, if_pos rfl]
      simp
      tauto
    · rw [addToBuckets_cons, if_neg hd]
      simp [ih]
      tauto

theorem addToBuckets_wf (bs : List (String × List String)) (d u : String)
    (h : BucketsWF bs) (hd : domainOf u = d) : BucketsWF (addToBuckets bs d u) := by
  induction bs with
  | nil =>
    refine ⟨by simp [addToBuckets], ?_⟩
    intro du hdu
    simp [addToBuckets] at hdu
    subst hdu
    exact ⟨by simp, by simpa using hd⟩
  | cons hd0 rest ih =>
    rcases hd0 with ⟨d0, us⟩
    rcases h with ⟨hnd, hval⟩
    rw [List.map_cons, List.nodup_cons] at hnd
    by_cases hdd : d0 = d
    · subst hdd
      rw [addToBuckets_cons, if_pos rfl]
      refine ⟨?_, ?_⟩
      · rw [List.map_cons, List.nodup_cons]
        exact hnd
      · intro du hdu
        rcases List.mem_cons.mp hdu with rfl | hmem
        · refine ⟨by simp, ?_⟩
          intro v hv
          rcases List.mem_append.mp hv with h1 | h2
          · exact (hval (d0, us) (List.mem_cons_self _ _)).2 v h1
          · rcases List.mem_singleton.mp h2 with rfl
            exact hd
        · exact hval du (List.mem_cons_of_mem _ hmem)
    · rw [addToBuckets_cons, if_neg hdd]
      have ihh := ih ⟨hnd.2, fun du hdu => hval du (List.mem_cons_of_mem _ hdu)⟩
      refine ⟨?_, ?_⟩
      · rw [List.map_cons, List.nodup_cons]
        refine ⟨?_, ihh.1⟩
        intro hmem
        rcases (mem_keys_addToBuckets rest d u d0).mp hmem with h1 | h2
        · exact hnd.1 h1
        · exact hdd h2
      · intro du hdu
        rcases List.mem_cons.mp hdu with rfl | hmem
        · exact hval _ (List.mem_cons_self _ _)
        · exact ihh.2 du hmem

theorem bucketsFlat_addToBuckets (bs : List (String × List String)) (d u : String) :
    (bucketsFlat (addToBuckets bs d u)).Perm (u :: bucketsFlat bs) := by
  induction bs with
  | nil => simp [addToBuckets, bucketsFlat]
  | cons du rest ih =>
    rcases du with ⟨d0, us⟩
    by_cases hd : d0 = d
    · subst hd
      rw [addToBuckets_cons, if_pos rfl, bucketsFlat_cons, bucketsFlat_cons, List.append_assoc]
      exact List.perm_middle
    · rw [addToBuckets_cons, if_neg hd, bucketsFlat_cons, bucketsFlat_cons]
      exact (List.Perm.append_left us ih).trans List.perm_middle

theorem addToGroups_cons (p0 : Int) (bs : List (String × List String))
    (rest : List (Int × List (String × List String))) (p : Int) (d u : String) :
    addToGroups ((p0, bs) :: rest) p d u =
      if p0 = p then (p0, addToBuckets bs d u) :: rest
      else (p0, bs) :: addToGroups rest p d u := rfl

theorem groupsFlat_cons (p : Int) (bs : List (String × List String))
    (rest : List (Int × List (String × List String))) :
    groupsFlat ((p, bs) :: rest) =
      (bucketsFlat bs).map (fun u => (u, p)) ++ groupsFlat rest := by
  simp [groupsFlat]

theorem mem_keys_addToGroups (gs : List (Int × List (String × List String)))
    (p : Int) (d u : String) (x : Int) :
    x ∈ (addToGroups gs p d u).map Prod.fst ↔ x ∈ gs.map Prod.fst ∨ x = p := by
  induction gs with
  | nil => simp [addToGroups]
  | cons pb rest ih =>
    rcases pb with ⟨p0, bs⟩
    by_cases hp : p0 = p
    · subst hp
      rw [addToGroups_cons, if_pos rfl]
      simp
      tauto
    · rw [addToGroups_cons, if_neg hp]
      simp [ih]
      tauto

theorem addToGroups_wf (gs : List (Int × List (String × List String)))
    (p : Int) (d u : String) (h : GroupsWF gs) (hd : domainOf u = d) :
    GroupsWF (addToGroups gs p d u) := by
  induction gs with
  | nil =>
    refine ⟨by simp [addToGroups], ?_⟩
    intro pb hpb
    simp [addToGroups] at hpb
    subst hpb
    refine ⟨by simp, ?_⟩
    intro du hdu
    simp at hdu
    subst hdu
    exact ⟨by simp, by simpa using hd⟩
  | cons pb rest ih =>
    rcases pb with ⟨p0, bs⟩
    rcases h with ⟨hnd, hval⟩
    rw [List.map_cons, List.nodup_cons] at hnd
    by_cases hpp : p0 = p
    · subst hpp
      rw [addToGroups_cons, if_pos rfl]
      refine ⟨?_, ?_⟩
      · rw [List.map_cons, List.nodup_cons]
        exact hnd
      · intro pb hpb
        rcases List.mem_cons.mp hpb with rfl | hmem
        · exact addToBuckets_wf bs d u (hval (p0, bs) (List.mem_cons_self _ _)) hd
        · exact hval pb (List.mem_cons_of_mem _ hmem)
    · rw [addToGroups_cons, if_neg hpp]
      have ihh := ih ⟨hnd.2, fun pb hpb => hval pb (List.mem_cons_of_mem _ hpb)⟩
      refine ⟨?_, ?_⟩
      · rw [List.map_cons, List.nodup_cons]
        refine ⟨?_, ihh.1⟩
        intro hmem
        rcases (mem_keys_addToGroups rest p d u p0).mp hmem with h1 | h2
        · exact hnd.1 h1
        · exact hpp h2
      · intro pb hpb
        rcases List.mem_cons.mp hpb with rfl | hmem
        · exact hval _ (List.mem_cons_self _ _)
        · exact ihh.2 pb hmem

theorem groupsFlat_addToGroups (gs : List (Int × List (String × List String)))
    (p : Int) (d u : String) :
    (groupsFlat (addToGroups gs p d u)).Perm ((u, p) :: groupsFlat gs) := by
  induction gs with
  | nil => simp [addToGroups, groupsFlat, bucketsFlat]
  | cons pb rest ih =>
    rcases pb with ⟨p0, bs⟩
    by_cases hp : p0 = p
    · subst hp
      rw [addToGroups_cons, if_pos rfl, groupsFlat_cons, groupsFlat_cons]
      have h1 := (bucketsFlat_addToBuckets bs d u).map (fun u => (u, p0))
      rw [List.map_cons] at h1
      exact (h1.append_right (groupsFlat rest)).trans (by rw [List.cons_append])
    · rw [addToGroups_cons, if_neg hp, groupsFlat_cons, groupsFlat_cons]
      exact (List.Perm.append_left _ ih).trans List.perm_middle

theorem priority_groups_wf (l : List (String × Int)) : GroupsWF (priority_groups l) := by
  have key : ∀ gs, GroupsWF gs →
      GroupsWF (l.foldl (fun gs lp => addToGroups gs lp.2 (domainOf lp.1) lp.1) gs) := by
    induction l with
    | nil => intro gs h; exact h
    | cons x xs ih =>
      intro gs h
      exact ih _ (addToGroups_wf gs x.2 (domainOf x.1) x.1 h rfl)
  exact key [] ⟨by simp, by simp⟩

theorem groupsFlat_priority_groups (l : List (String × Int)) :
    (groupsFlat (priority_groups l)).Perm l := by
  have key : ∀ gs,
      (groupsFlat (l.foldl (fun gs lp => addToGroups gs lp.2 (domainOf lp.1) lp.1) gs)).Perm
        (l ++ groupsFlat gs) := by
    induction l with
    | nil => intro gs; simp
    | cons x xs ih =>
      intro gs
      refine (ih _).trans ?_
      have h1 : (groupsFlat (addToGroups gs x.2 (domainOf x.1) x.1)).Perm
          ((x.1, x.2) :: groupsFlat gs) := groupsFlat_addToGroups gs x.2 (domainOf x.1) x.1
      refine (List.Perm.append_left xs h1).trans ?_
      show (xs ++ (x :: groupsFlat gs)).Perm ((x :: xs) ++ groupsFlat gs)
      exact List.perm_middle.trans (by rw [List.cons_append])
  have h := key []
  simpa [groupsFlat] using h

theorem lookupGroup_eq (gs : List (Int × List (String × List String)))
    (h : (gs.map Prod.fst).Nodup) :
    ∀ pb ∈ gs, lookupGroup gs pb.1 = pb.2 := by
  induction gs with
  | nil => intro pb hpb; simp at hpb
  | cons qb rest ih =>
    rcases qb with ⟨p0, bs0⟩
    rw [List.map_cons, List.nodup_cons] at h
    intro pb hpb
    rcases List.mem_cons.mp hpb with rfl | hmem
    · show (if p0 = p0 then bs0 else _) = _
      rw [if_pos rfl]
    · show (if p0 = pb.1 then bs0 else lookupGroup rest pb.1) = pb.2
      rw [if_neg, ih h.2 pb hmem]
      intro hcon
      apply h.1
      rw [hcon]
      exact List.mem_map.mpr ⟨pb, hmem, rfl⟩

theorem lookupGroup_not_mem (gs : List (Int × List (String × List String)))
    (p : Int) (h : p ∉ gs.map Prod.fst) : lookupGroup gs p = [] := by
  induction gs with
  | nil => rfl
  | cons qb rest ih =>
    rcases qb with ⟨p0, bs0⟩
    rw [List.map_cons] at h
    show (if p0 = p then bs0 else lookupGroup rest p) = []
    rw [if_neg (fun hcon => h (by rw [← hcon]; exact List.mem_cons_self _ _)),
      ih (fun hcon => h (List.mem_cons_of_mem _ hcon))]

theorem lookupBucket_mem (bs : List (String × List String)) (d : String)
    (h : d ∈ bs.map Prod.fst) : (d, lookupBucket bs d) ∈ bs := by
  induction bs with
  | nil => simp at h
  | cons du rest ih =>
    rcases du with ⟨d0, us⟩
    by_cases hd : d0 = d
    · subst hd
      show (d0, if d0 = d0 then us else _) ∈ _
      rw [if_pos rfl]
      exact List.mem_cons_self _ _
    · show (d, if d0 = d then us else lookupBucket rest d) ∈ _
      rw [if_neg hd]
      refine List.mem_cons_of_mem _ (ih ?_)
      rw [List.map_cons] at h
      rcases List.mem_cons.mp h with h1 | h2
      · exact absurd h1.symm hd
      · exact h2

theorem lookupBucket_eq (bs : List (String × List String))
    (h : (bs.map Prod.fst).Nodup) :
    ∀ du ∈ bs, lookupBucket bs du.1 = du.2 := by
  induction bs with
  | nil => intro du hdu; simp at hdu
  | cons eu rest ih =>
    rcases eu with ⟨d0, us0⟩
    rw [List.map_cons, List.nodup_cons] at h
    intro du hdu
    rcases List.mem_cons.mp hdu with rfl | hmem
    · show (if d0 = d0 then us0 else _) = _
      rw [if_pos rfl]
    · show (if d0 = du.1 then us0 else lookupBucket rest du.1) = du.2
      rw [if_neg, ih h.2 du hmem]
      intro hcon
      apply h.1
      rw [hcon]
      exact List.mem_map.mpr ⟨du, hmem, rfl⟩

theorem rr_pass_perm (qs : List (List String)) :
    (qs.filterMap List.head? ++ (qs.map List.tail).flatten).Perm qs.flatten := by
  induction qs with
  | nil => simp
  | cons q rest ih =>
    cases q with
    | nil => simpa using ih
    | cons a t =>
      show (a :: rest.filterMap List.head? ++ (t ++ (rest.map List.tail).flatten)).Perm
        ((a :: t) ++ rest.flatten)
      rw [List.cons_append, List.cons_append]
      refine List.Perm.cons a ?_
      have h1 : (rest.filterMap List.head? ++ (t ++ (rest.map List.tail).flatten)).Perm
          ((t ++ rest.filterMap List.head?) ++ (rest.map List.tail).flatten) := by
        rw [← List.append_assoc]
        exact (List.perm_append_comm).append_right _
      refine h1.trans ?_
      rw [List.append_assoc]
      exact List.Perm.append_left t ih

theorem sumLens_tail_le (qs : List (List String)) :
    sumLens (qs.map List.tail) ≤ sumLens qs := by
  induction qs with
  | nil => simp [sumLens]
  | cons q rest ih =>
    show (List.tail q).length + sumLens (rest.map List.tail) ≤ q.length + sumLens rest
    have : q.tail.length ≤ q.length := by
      cases q <;> simp
    omega

theorem sumLens_tail_lt (qs : List (List String))
    (h : ¬ qs.all List.isEmpty = true) : sumLens (qs.map List.tail) < sumLens qs := by
  induction qs with
  | nil => simp at h
  | cons q rest ih =>
    show (List.tail q).length + sumLens (rest.map List.tail) < q.length + sumLens rest
    rw [List.all_cons, Bool.and_eq_true] at h
    rcases not_and_or.mp h with h1 | h2
    · cases q with
      | nil => simp at h1
      | cons a t =>
        have := sumLens_tail_le rest
        simp only [List.tail_cons, List.length_cons]
        omega
    · have := ih h2
      have h3 : q.tail.length ≤ q.length := by cases q <;> simp
      omega

theorem sumLens_zero_flatten (qs : List (List String)) (h : sumLens qs = 0) :
    qs.flatten = [] := by
  induction qs with
  | nil => rfl
  | cons q rest ih =>
    have hq : q.length = 0 ∧ sumLens rest = 0 := by
      have : q.length + sumLens rest = 0 := h
      omega
    rw [List.flatten_cons, List.length_eq_zero.mp hq.1, ih hq.2, List.nil_append]

theorem all_isEmpty_flatten (qs : List (List String)) (h : qs.all List.isEmpty = true) :
    qs.flatten = [] := by
  induction qs with
  | nil => rfl
  | cons q rest ih =>
    rw [List.all_cons, Bool.and_eq_true] at h
    rw [List.flatten_cons, List.isEmpty_iff.mp h.1, ih h.2, List.nil_append]

theorem roundRobinFuel_perm (n : Nat) : ∀ qs, sumLens qs ≤ n →
    (roundRobinFuel n qs).Perm qs.flatten := by
  induction n with
  | zero =>
    intro qs h
    rw [show roundRobinFuel 0 qs = [] from rfl, sumLens_zero_flatten qs (by omega)]
  | succ n ih =>
    intro qs h
    show (if qs.all List.isEmpty then [] else
      (qs.filterMap List.head?) ++ roundRobinFuel n (qs.map List.tail)).Perm qs.flatten
    by_cases hall : qs.all List.isEmpty = true
    · rw [if_pos hall, all_isEmpty_flatten qs hall]
    · rw [if_neg hall]
      have hlt := sumLens_tail_lt qs hall
      have := ih (qs.map List.tail) (by omega)
      exact (List.Perm.append_left _ this).trans (rr_pass_perm qs)

theorem roundRobin_perm (qs : List (List String)) : (roundRobin qs).Perm qs.flatten :=
  roundRobinFuel_perm (sumLens qs) qs le_rfl

theorem filterMap_head_length (qs : List (List String)) (h : ∀ q ∈ qs, q ≠ []) :
    (qs.filterMap List.head?).length = qs.length := by
  induction qs with
  | nil => rfl
  | cons q rest ih =>
    cases q with
    | nil => exact absurd rfl (h [] (List.mem_cons_self _ _))
    | cons a t =>
      show (a :: rest.filterMap List.head?).length = rest.length + 1
      rw [List.length_cons, ih (fun q hq => h q (List.mem_cons_of_mem _ hq))]

theorem roundRobin_take_heads (qs : List (List String)) (hne : qs ≠ [])
    (h : ∀ q ∈ qs, q ≠ []) :
    (roundRobin qs).take qs.length = qs.filterMap List.head? := by
  have hpos : 1 ≤ sumLens qs := by
    rcases qs with - | ⟨q, rest⟩
    · exact absurd rfl hne
    · rcases q with - | ⟨a, t⟩
      · exact absurd rfl (h [] (List.mem_cons_self _ _))
      · show 1 ≤ (a :: t).length + sumLens rest
        simp
        omega
  have hallne : ¬ qs.all List.isEmpty = true := by
    intro hcon
    rcases qs with - | ⟨q, rest⟩
    · exact hne rfl
    · rw [List.all_cons, Bool.and_eq_true] at hcon
      exact h q (List.mem_cons_self _ _) (List.isEmpty_iff.mp hcon.1)
  rcases hn : sumLens qs with - | n
  · omega
  · show (roundRobinFuel (sumLens qs) qs).take qs.length = _
    rw [hn]
    show (if qs.all List.isEmpty then [] else
      (qs.filterMap List.head?) ++ roundRobinFuel n (qs.map List.tail)).take qs.length = _
    rw [if_neg hallne, ← filterMap_head_length qs h, List.take_left]

theorem queues_nonempty (bs : List (String × List String)) (hwf : BucketsWF bs)
    (ds : List String) (hds : ∀ d ∈ ds, d ∈ bs.map Prod.fst) :
    ∀ q ∈ ds.map (fun d => lookupBucket bs d), q ≠ [] := by
  intro q hq
  rcases List.mem_map.mp hq with ⟨d, hd, rfl⟩
  exact (hwf.2 (d, lookupBucket bs d) (lookupBucket_mem bs d (hds d hd))).1

theorem heads_domains (bs : List (String × List String)) (hwf : BucketsWF bs) :
    ∀ ds : List String, (∀ d ∈ ds, d ∈ bs.map Prod.fst) →
    ((ds.map (fun d => lookupBucket bs d)).filterMap List.head?).map domainOf = ds := by
  intro ds
  induction ds with
  | nil => intro _; rfl
  | cons d rest ih =>
    intro hds
    have hmem := lookupBucket_mem bs d (hds d (List.mem_cons_self _ _))
    have hval := hwf.2 _ hmem
    rcases hus : lookupBucket bs d with - | ⟨u0, tl⟩
    · exact absurd hus hval.1
    · rw [List.map_cons, List.filterMap_cons, hus]
      show List.map domainOf
        (u0 :: (rest.map (fun d => lookupBucket bs d)).filterMap List.head?) = d :: rest
      rw [List.map_cons, ih (fun d2 hd2 => hds d2 (List.mem_cons_of_mem _ hd2)),
        hval.2 u0 (by rw [hus]; exact List.mem_cons_self _ _)]

theorem groupsFlat_snd_mem (gs : List (Int × List (String × List String))) :
    ∀ x ∈ groupsFlat gs, x.2 ∈ gs.map Prod.fst := by
  intro x hx
  rcases List.mem_flatMap.mp hx with ⟨pb, hpb, hchunk⟩
  rcases List.mem_map.mp hchunk with ⟨u, hu, rfl⟩
  exact List.mem_map.mpr ⟨pb, hpb, rfl⟩

theorem groupsFlat_filter (gs : List (Int × List (String × List String)))
    (h : GroupsWF gs) (p : Int) :
    (groupsFlat gs).filter (fun x => x.2 = p) =
      (bucketsFlat (lookupGroup gs p)).map (fun u => (u, p)) := by
  induction gs with
  | nil => rfl
  | cons pb rest ih =>
    rcases pb with ⟨p0, bs0⟩
    rcases h with ⟨hnd, hval⟩
    rw [List.map_cons, List.nodup_cons] at hnd
    rw [groupsFlat_cons, List.filter_append]
    by_cases hp : p0 = p
    · subst hp
      have hrest : (groupsFlat rest).filter (fun x => x.2 = p0) = [] := by
        rw [List.filter_eq_nil_iff]
        intro x hx
        simp only [decide_eq_true_eq]
        intro hcon
        exact hnd.1 (hcon ▸ groupsFlat_snd_mem rest x hx)
      have hchunk : ((bucketsFlat bs0).map (fun u => (u, p0))).filter (fun x => x.2 = p0) =
          (bucketsFlat bs0).map (fun u => (u, p0)) := by
        rw [List.filter_eq_self]
        intro x hx
        rcases List.mem_map.mp hx with ⟨u, hu, rfl⟩
        simp
      rw [hrest, hchunk, List.append_nil]
      show _ = (bucketsFlat (if p0 = p0 then bs0 else lookupGroup rest p0)).map _
      rw [if_pos rfl]
    · have hchunk : ((bucketsFlat bs0).map (fun u => (u, p0))).filter (fun x => x.2 = p) = [] := by
        rw [List.filter_eq_nil_iff]
        intro x hx
        rcases List.mem_map.mp hx with ⟨u, hu, rfl⟩
        simp only [decide_eq_true_eq]
        exact hp
      rw [hchunk, List.nil_append,
        ih ⟨hnd.2, fun pb hpb => hval pb (List.mem_cons_of_mem _ hpb)⟩]
      show _ = (bucketsFlat (if p0 = p then bs0 else lookupGroup rest p)).map _
      rw [if_neg hp]

theorem sorted_of_const (q : Int) : ∀ xs : List Int, (∀ x ∈ xs, x = q) →
    xs.Sorted (· ≤ ·)
  | [] => fun _ => List.sorted_nil
  | x :: xs => fun h => by
    rw [List.sorted_cons]
    refine ⟨?_, sorted_of_const q xs (fun y hy => h y (List.mem_cons_of_mem _ hy))⟩
    intro b hb
    rw [h x (List.mem_cons_self _ _), h b (List.mem_cons_of_mem _ hb)]

theorem sorted_snd_flatMap (ks : List Int) (f : Int → List (String × Int))
    (hs : ks.Sorted (· ≤ ·)) (hf : ∀ q, ∀ x ∈ f q, x.2 = q) :
    ((ks.flatMap f).map Prod.snd).Sorted (· ≤ ·) := by
  induction ks with
  | nil => exact List.sorted_nil
  | cons q rest ih =>
    rw [List.flatMap_cons, List.map_append]
    refine List.pairwise_append.mpr ⟨?_, ?_, ?_⟩
    · refine sorted_of_const q _ ?_
      intro x hx
      rcases List.mem_map.mp hx with ⟨y, hy, rfl⟩
      exact hf q y hy
    · exact ih hs.of_cons
    · intro a ha b hb
      rcases List.mem_map.mp ha with ⟨y, hy, rfl⟩
      rcases List.mem_map.mp hb with ⟨z, hz, rfl⟩
      rcases List.mem_flatMap.mp hz with ⟨q2, hq2, hzin⟩
      rw [hf q y hy, hf q2 z hzin]
      exact List.rel_of_sorted_cons hs q2 hq2

theorem filter_flatMap_blocks (ks : List Int) (f : Int → List (String × Int))
    (hf : ∀ q, ∀ x ∈ f q, x.2 = q) (hk : ks.Nodup) (p : Int) (hp : p ∈ ks) :
    (ks.flatMap f).filter (fun x => x.2 = p) = f p := by
  induction ks with
  | nil => simp at hp
  | cons q rest ih =>
    rw [List.nodup_cons] at hk
    rw [List.flatMap_cons, List.filter_append]
    by_cases hq : q = p
    · subst hq
      have hrest : (rest.flatMap f).filter (fun x => x.2 = q) = [] := by
        rw [List.filter_eq_nil_iff]
        intro x hx
        rcases List.mem_flatMap.mp hx with ⟨q2, hq2, hxin⟩
        simp only [decide_eq_true_eq]
        intro hcon
        have hq2p : q2 = q := by
          rw [← hf q2 x hxin]
          exact hcon
        exact hk.1 (hq2p ▸ hq2)
      have hchunk : (f q).filter (fun x => x.2 = q) = f q := by
        rw [List.filter_eq_self]
        intro x hx
        simp only [decide_eq_true_eq]
        exact hf q x hx
      rw [hrest, hchunk, List.append_nil]
    · have hchunk : (f q).filter (fun x => x.2 = p) = [] := by
        rw [List.filter_eq_nil_iff]
        intro x hx
        simp only [decide_eq_true_eq]
        rw [hf q x hx]
        exact hq
      rw [hchunk, List.nil_append]
      exact ih hk.2 (by rcases List.mem_cons.mp hp with rfl | h2; exacts [absurd rfl hq, h2])

theorem filter_flatMap_blocks_not_mem (ks : List Int) (f : Int → List (String × Int))
    (hf : ∀ q, ∀ x ∈ f q, x.2 = q) (p : Int) (hp : p ∉ ks) :
    (ks.flatMap f).filter (fun x => x.2 = p) = [] := by
  rw [List.filter_eq_nil_iff]
  intro x hx
  rcases List.mem_flatMap.mp hx with ⟨q2, hq2, hxin⟩
  simp only [decide_eq_true_eq]
  intro hcon
  have hq2p : q2 = p := by
    rw [← hf q2 x hxin]
    exact hcon
  exact hp (hq2p ▸ hq2)

theorem bucketsFlat_domains_dedup (bs : List (String × List String)) (hwf : BucketsWF bs) :
    ((bucketsFlat bs).map domainOf).dedup.length = bs.length := by
  have hset : ((bucketsFlat bs).map domainOf).toFinset = (bs.map Prod.fst).toFinset := by
    ext x
    simp only [List.mem_toFinset, List.mem_map]
    constructor
    · rintro ⟨u, hu, rfl⟩
      rcases List.mem_flatMap.mp hu with ⟨du, hdu, huin⟩
      exact ⟨du, hdu, ((hwf.2 du hdu).2 u huin).symm⟩
    · rintro ⟨du, hdu, rfl⟩
      have hne := (hwf.2 du hdu).1
      rcases hd2 : du.2 with - | ⟨u0, tl⟩
      · exact absurd hd2 hne
      · refine ⟨u0, List.mem_flatMap.mpr ⟨du, hdu, by rw [hd2]; exact List.mem_cons_self _ _⟩, ?_⟩
        exact (hwf.2 du hdu).2 u0 (by rw [hd2]; exact List.mem_cons_self _ _)
  calc ((bucketsFlat bs).map domainOf).dedup.length
      = ((bucketsFlat bs).map domainOf).toFinset.card := (List.card_toFinset _).symm
    _ = (bs.map Prod.fst).toFinset.card := by rw [hset]
    _ = (bs.map Prod.fst).dedup.length := List.card_toFinset _
    _ = (bs.map Prod.fst).length := by rw [List.Nodup.dedup hwf.1]
    _ = bs.length := List.length_map _ _

theorem buckets_le_flat (bs : List (String × List String))
    (h : ∀ du ∈ bs, du.2 ≠ []) : bs.length ≤ (bucketsFlat bs).length := by
  induction bs with
  | nil => simp
  | cons du rest ih =>
    rcases du with ⟨d, us⟩
    rw [bucketsFlat_cons, List.length_cons, List.length_append]
    have hne := h (d, us) (List.mem_cons_self _ _)
    have h1 : 1 ≤ us.length := by
      rcases us with - | ⟨a, t⟩
      · exact absurd rfl hne
      · simp
    have := ih (fun du hdu => h du (List.mem_cons_of_mem _ hdu))
    omega

theorem flatMap_perm_congr {γ : Type} (ds : List γ) (f g : γ → List (String × Int))
    (h : ∀ q ∈ ds, (f q).Perm (g q)) : (ds.flatMap f).Perm (ds.flatMap g) := by
  induction ds with
  | nil => rfl
  | cons q rest ih =>
    rw [List.flatMap_cons, List.flatMap_cons]
    exact (h q (List.mem_cons_self _ _)).append
      (ih (fun q2 hq2 => h q2 (List.mem_cons_of_mem _ hq2)))

theorem flatMap_congr_mem {γ : Type} (ds : List γ) (f g : γ → List (String × Int))
    (h : ∀ q ∈ ds, f q = g q) : ds.flatMap f = ds.flatMap g := by
  induction ds with
  | nil => rfl
  | cons q rest ih =>
    rw [List.flatMap_cons, List.flatMap_cons, h q (List.mem_cons_self _ _),
      ih (fun q2 hq2 => h q2 (List.mem_cons_of_mem _ hq2))]

/-- The emission block of one priority class: the round robin over its
domain queues in sorted domain order, paired back with the priority. -/
def blockOf (gs : List (Int × List (String × List String))) (q : Int) : List (String × Int) :=
  (roundRobin ((List.insertionSort strLe ((lookupGroup gs q).map Prod.fst)).map
    (fun d => lookupBucket (lookupGroup gs q) d))).map (fun u => (u, q))

theorem interleave_eq (l : List (String × Int)) :
    _interleave_links_by_domain l =
      (List.insertionSort (· ≤ ·) ((priority_groups l).map Prod.fst)).flatMap
        (blockOf (priority_groups l)) := rfl

theorem blockOf_snd (gs : List (Int × List (String × List String))) (q : Int) :
    ∀ x ∈ blockOf gs q, x.2 = q := by
  intro x hx
  rcases List.mem_map.mp hx with ⟨u, hu, rfl⟩
  rfl

theorem lookupGroup_wf (gs : List (Int × List (String × List String)))
    (hwf : GroupsWF gs) (q : Int) : BucketsWF (lookupGroup gs q) := by
  by_cases hq : q ∈ gs.map Prod.fst
  · rcases List.mem_map.mp hq with ⟨pb, hpb, rfl⟩
    rw [lookupGroup_eq gs hwf.1 pb hpb]
    exact hwf.2 pb hpb
  · rw [lookupGroup_not_mem gs q hq]
    exact ⟨List.nodup_nil, by simp⟩

theorem flatten_map_snd (bs : List (String × List String)) :
    (bs.map Prod.snd).flatten = bucketsFlat bs := by
  induction bs with
  | nil => rfl
  | cons du rest ih => rw [List.map_cons, List.flatten_cons, ih]; rw [show bucketsFlat (du :: rest) = du.2 ++ bucketsFlat rest from by rcases du with ⟨d, us⟩; exact bucketsFlat_cons d us rest]

theorem roundRobin_queues_perm (bs : List (String × List String)) (hwf : BucketsWF bs) :
    (roundRobin ((List.insertionSort strLe (bs.map Prod.fst)).map
      (fun d => lookupBucket bs d))).Perm (bucketsFlat bs) := by
  refine (roundRobin_perm _).trans ?_
  have h1 : ((List.insertionSort strLe (bs.map Prod.fst)).map
      (fun d => lookupBucket bs d)).Perm ((bs.map Prod.fst).map (fun d => lookupBucket bs d)) :=
    (List.perm_insertionSort strLe _).map _
  refine h1.flatten.trans ?_
  have h2 : (bs.map Prod.fst).map (fun d => lookupBucket bs d) = bs.map Prod.snd := by
    rw [List.map_map]
    refine List.map_congr_left ?_
    intro du hdu
    exact lookupBucket_eq bs hwf.1 du hdu
  rw [h2, flatten_map_snd]

theorem blockOf_perm (gs : List (Int × List (String × List String)))
    (hwf : GroupsWF gs) (q : Int) :
    (blockOf gs q).Perm ((bucketsFlat (lookupGroup gs q)).map (fun u => (u, q))) :=
  (roundRobin_queues_perm (lookupGroup gs q) (lookupGroup_wf gs hwf q)).map _

theorem flatMap_eq_flatten {γ δ : Type} (l : List γ) (f : γ → List δ) :
    l.flatMap f = (l.map f).flatten := by
  induction l with
  | nil => rfl
  | cons x xs ih => rw [List.flatMap_cons, List.map_cons, List.flatten_cons, ih]

theorem flatMap_of_map {γ δ ε : Type} (l : List γ) (g : γ → δ) (f : δ → List ε) :
    (l.map g).flatMap f = l.flatMap (fun x => f (g x)) := by
  induction l with
  | nil => rfl
  | cons x xs ih => rw [List.map_cons, List.flatMap_cons, List.flatMap_cons, ih]

/-- Claim C3: _interleave_links_by_domain emits a permutation of its
input, with priorities ascending, and within the priority class of p,
whose input links span k distinct hosts, the first k emissions carry k
pairwise distinct hosts. -/
theorem C3_interleave_links_by_domain_spec (l : List (String × Int)) (p : Int) :
    (_interleave_links_by_domain l).Perm l ∧
    ((_interleave_links_by_domain l).map Prod.snd).Sorted (· ≤ ·) ∧
    ((l.filter (fun x => x.2 = p)).map (fun x => domainOf x.1)).dedup.length ≤
      ((_interleave_links_by_domain l).filter (fun x => x.2 = p)).length ∧
    ((((_interleave_links_by_domain l).filter (fun x => x.2 = p)).take
        (((l.filter (fun x => x.2 = p)).map (fun x => domainOf x.1)).dedup.length)).map
      (fun x => domainOf x.1)).Nodup := by
  have hwf := priority_groups_wf l
  have hflat := groupsFlat_priority_groups l
  have hks_perm : (List.insertionSort (· ≤ ·) ((priority_groups l).map Prod.fst)).Perm
      ((priority_groups l).map Prod.fst) := List.perm_insertionSort _ _
  have hks_nodup : (List.insertionSort (· ≤ ·) ((priority_groups l).map Prod.fst)).Nodup :=
    (hks_perm.nodup_iff).mpr hwf.1
  refine ⟨?_, ?_, ?_⟩
  · rw [interleave_eq]
    have e1 : ((List.insertionSort (· ≤ ·) ((priority_groups l).map Prod.fst)).flatMap
        (blockOf (priority_groups l))).Perm
        (((priority_groups l).map Prod.fst).flatMap (blockOf (priority_groups l))) := by
      rw [flatMap_eq_flatten, flatMap_eq_flatten]
      exact (hks_perm.map _).flatten
    refine e1.trans ?_
    have e2 : (((priority_groups l).map Prod.fst).flatMap (blockOf (priority_groups l))).Perm
        (((priority_groups l).map Prod.fst).flatMap
          (fun q => (bucketsFlat (lookupGroup (priority_groups l) q)).map (fun u => (u, q)))) :=
      flatMap_perm_congr _ _ _ (fun q _ => blockOf_perm (priority_groups l) hwf q)
    refine e2.trans ?_
    have e3 : ((priority_groups l).map Prod.fst).flatMap
        (fun q => (bucketsFlat (lookupGroup (priority_groups l) q)).map (fun u => (u, q))) =
        groupsFlat (priority_groups l) := by
      rw [flatMap_of_map]
      refine flatMap_congr_mem _ _ _ ?_
      intro pb hpb
      rw [lookupGroup_eq (priority_groups l) hwf.1 pb hpb]
    rw [e3]
    exact hflat
  · rw [interleave_eq]
    exact sorted_snd_flatMap _ _ (List.sorted_insertionSort _ _) (blockOf_snd (priority_groups l))
  · by_cases hp : p ∈ (priority_groups l).map Prod.fst
    · have hpks : p ∈ List.insertionSort (· ≤ ·) ((priority_groups l).map Prod.fst) :=
        hks_perm.mem_iff.mpr hp
      have hcls : (_interleave_links_by_domain l).filter (fun x => x.2 = p) =
          blockOf (priority_groups l) p := by
        rw [interleave_eq]
        exact filter_flatMap_blocks _ _ (blockOf_snd (priority_groups l)) hks_nodup p hpks
      have hbwf := lookupGroup_wf (priority_groups l) hwf p
      have hclass : (l.filter (fun x => x.2 = p)).Perm
          ((bucketsFlat (lookupGroup (priority_groups l) p)).map (fun u => (u, p))) := by
        refine (hflat.symm.filter _).trans ?_
        rw [groupsFlat_filter (priority_groups l) hwf p]
      have hmapmap : ((bucketsFlat (lookupGroup (priority_groups l) p)).map
          (fun u => (u, p))).map (fun x => domainOf x.1) =
          (bucketsFlat (lookupGroup (priority_groups l) p)).map domainOf := by
        rw [List.map_map]
        rfl
      have hk : ((l.filter (fun x => x.2 = p)).map (fun x => domainOf x.1)).dedup.length =
          (lookupGroup (priority_groups l) p).length := by
        rw [(List.Perm.dedup (hclass.map (fun x => domainOf x.1))).length_eq, hmapmap,
          bucketsFlat_domains_dedup _ hbwf]
      have hlen : (blockOf (priority_groups l) p).length =
          (bucketsFlat (lookupGroup (priority_groups l) p)).length := by
        rw [(blockOf_perm (priority_groups l) hwf p).length_eq, List.length_map]
      constructor
      · rw [hcls, hk, hlen]
        exact buckets_le_flat _ (fun du hdu => (hbwf.2 du hdu).1)
      · rw [hcls, hk]
        by_cases hbs0 : lookupGroup (priority_groups l) p = []
        · rw [hbs0]
          simp
        · have hds_sub : ∀ d ∈ List.insertionSort strLe
              ((lookupGroup (priority_groups l) p).map Prod.fst),
              d ∈ (lookupGroup (priority_groups l) p).map Prod.fst :=
            fun d hd => (List.perm_insertionSort strLe _).subset hd
          have hq_ne := queues_nonempty _ hbwf _ hds_sub
          have hqs_len : ((List.insertionSort strLe
              ((lookupGroup (priority_groups l) p).map Prod.fst)).map
              (fun d => lookupBucket (lookupGroup (priority_groups l) p) d)).length =
              (lookupGroup (priority_groups l) p).length := by
            rw [List.length_map, (List.perm_insertionSort strLe _).length_eq, List.length_map]
          have hqs_ne : ((List.insertionSort strLe
              ((lookupGroup (priority_groups l) p).map Prod.fst)).map
              (fun d => lookupBucket (lookupGroup (priority_groups l) p) d)) ≠ [] := by
            intro hcon
            apply hbs0
            have := hqs_len
            rw [hcon] at this
            exact List.length_eq_zero.mp this.symm
          have htake := roundRobin_take_heads _ hqs_ne hq_ne
          have hheads := heads_domains _ hbwf _ hds_sub
          show (((blockOf (priority_groups l) p).take
            (lookupGroup (priority_groups l) p).length).map (fun x => domainOf x.1)).Nodup
          unfold blockOf
          rw [← List.map_take, List.map_map, ← hqs_len, htake]
          show ((((List.insertionSort strLe ((lookupGroup (priority_groups l) p).map Prod.fst)).map
            (fun d => lookupBucket (lookupGroup (priority_groups l) p) d)).filterMap
              List.head?).map domainOf).Nodup
          rw [hheads]
          exact ((List.perm_insertionSort strLe _).nodup_iff).mpr hbwf.1
    · have hcls0 : (_interleave_links_by_domain l).filter (fun x => x.2 = p) = [] := by
        rw [interleave_eq]
        exact filter_flatMap_blocks_not_mem _ _ (blockOf_snd (priority_groups l)) p
          (fun hcon => hp (hks_perm.subset hcon))
      have hclass0 : l.filter (fun x => x.2 = p) = [] := by
        have h1 : (groupsFlat (priority_groups l)).filter (fun x => x.2 = p) = [] := by
          rw [List.filter_eq_nil_iff]
          intro x hx
          simp only [decide_eq_true_eq]
          intro hcon
          exact hp (hcon ▸ groupsFlat_snd_mem (priority_groups l) x hx)
        exact List.Perm.eq_nil ((hflat.symm.filter _).trans (by rw [h1]))
      rw [hcls0, hclass0]
      simp
